import Mathlib

/-!
Verification development for the decimal-to-float conversion engine
(`dec2flt`).  The repository provides the engine's test surface
(`src/libcoretest/num/dec2flt/mod.rs`); the engine itself is described by the
design document.  The definitions below are a shallow embedding of that
engine: the grammar validator, the decimal normalizer, the saturating
exponent accumulator, and the correctly-rounding conversion to a binary
floating-point format, all written as executable Lean functions over `Nat`,
`Int` and `Rat`.
-/

set_option maxRecDepth 40000
set_option maxHeartbeats 1000000

namespace Dec2Flt

/-- Modelled from the spec: the `FloatFormat` descriptor of a binary IEEE
format (spec section 3).  The engine code itself is not in the repository
sources, so the descriptor is taken from the spec's data model.  `prec` is the
mantissa width including the implicit leading bit; `minExpN` encodes the
minimum quantum exponent (the actual exponent is `-minExpN`); `maxExp` is the
largest quantum exponent of a finite value, so the largest finite magnitude is
`(2^prec - 1) * 2^maxExp`.  `zeroCutoff` and `overCutoff` are the decimal
cutoffs that make the massive-exponent short circuits of spec section 4.6
sound: any value below `10^-zeroCutoff` underflows to zero and any value at or
above `10^overCutoff` overflows to infinity. -/
structure FloatFormat where
  prec : ℕ
  minExpN : ℕ
  maxExp : ℕ
  zeroCutoff : ℕ
  overCutoff : ℕ
deriving DecidableEq

/-- The minimum quantum (subnormal) exponent as an integer. -/
def FloatFormat.minExp (fmt : FloatFormat) : ℤ := -(fmt.minExpN : ℤ)

/-- Soundness conditions on a format descriptor.  The two power inequalities
state exactly that the decimal cutoffs imply underflow-to-zero and
overflow-to-infinity: `10^-zeroCutoff ≤ 2^(minExp-1)` (half the smallest
subnormal) and `2^prec * 2^maxExp ≤ 10^overCutoff` (above every finite
value's rounding range). -/
structure FloatFormat.Valid (fmt : FloatFormat) : Prop where
  two_le_prec : 2 ≤ fmt.prec
  zero_cutoff_ok : 2 ^ (fmt.minExpN + 1) ≤ 10 ^ fmt.zeroCutoff
  over_cutoff_ok : 2 ^ (fmt.prec + fmt.maxExp) ≤ 10 ^ fmt.overCutoff

/-- Modelled from the spec: the `ParseOutcome` of a conversion (spec section
3), i.e. the mathematically meaningful content of the final bit pattern.  A
finite value `finite neg m k` denotes `±m * 2^k`; `zero neg` is a signed
zero; `inf neg` a signed infinity; `nan` the NaN bit pattern.  The conversion
only ever produces canonical representations, so equality of `FpVal` stands
for bit-identity of the assembled patterns. -/
inductive FpVal where
  | zero (neg : Bool)
  | finite (neg : Bool) (m : ℕ) (k : ℤ)
  | inf (neg : Bool)
  | nan
deriving DecidableEq

/-- The error taxonomy of spec section 7: empty input or grammar violation. -/
inductive ParseError where
  | empty
  | invalid
deriving DecidableEq

instance : DecidableEq (Except ParseError FpVal) := fun a b =>
  match a, b with
  | .ok x, .ok y =>
      if h : x = y then .isTrue (by rw [h]) else .isFalse (by simp [h])
  | .error x, .error y =>
      if h : x = y then .isTrue (by rw [h]) else .isFalse (by simp [h])
  | .ok _, .error _ => .isFalse (by simp)
  | .error _, .ok _ => .isFalse (by simp)

/-! ### Arithmetic helpers -/

/-- Round a nonnegative fraction `num / den` to the nearest integer, ties to
even, by comparing twice the remainder with the divisor (spec section 4.4:
`2r` versus `v`, rounding up on a tie only if the quotient is odd). -/
def roundQuotient (num den : ℕ) : ℕ :=
  if 2 * (num % den) < den then num / den
  else if den < 2 * (num % den) then num / den + 1
  else if num / den % 2 = 0 then num / den else num / den + 1

/-- Fuelled binary logarithm: `log2f fuel n` is `⌊log₂ n⌋` whenever
`n < 2^fuel` and `1 ≤ n`.  Written with structural recursion on the fuel so
that the kernel can evaluate it on concrete inputs. -/
def log2f : ℕ → ℕ → ℕ
  | 0, _ => 0
  | fuel + 1, n => if n ≤ 1 then 0 else log2f fuel (n / 2) + 1

/-- `floorLog2 fuel u v` is `⌊log₂ (u / v)⌋` for positive naturals `u`, `v`
(given enough fuel).  For `u ≥ v` this is the binary logarithm of the integer
quotient; otherwise it is `-s` where `s` is the least shift with
`u * 2^s ≥ v`, located within two candidates of `⌊log₂ (v / u)⌋`. -/
def floorLog2 (fuel : ℕ) (u v : ℕ) : ℤ :=
  if v ≤ u then (log2f fuel (u / v) : ℤ)
  else if v ≤ u * 2 ^ log2f fuel (v / u) then -(log2f fuel (v / u) : ℤ)
  else if v ≤ u * 2 ^ (log2f fuel (v / u) + 1) then -((log2f fuel (v / u) : ℤ) + 1)
  else -((log2f fuel (v / u) : ℤ) + 2)

/-- Modelled from the spec: the slow-path conversion core (spec sections 4.4
and 4.5, Algorithm M with the exact tie resolution of Algorithm R folded in).
The exact positive value `u / v` is scaled by the power of two that brings it
into mantissa position, the scaled quotient is rounded to nearest with ties
to even using the exact remainder comparison, a mantissa overflow bumps the
exponent, and the result is clamped to signed zero below the underflow
boundary and to infinity above `maxExp`.  Subnormals arise through the
`max … minExp` clamp on the quantum exponent. -/
def toFloatPos (fmt : FloatFormat) (fuel : ℕ) (u v : ℕ) : FpVal :=
  let e0 : ℤ := floorLog2 fuel u v
  let k : ℤ := max (e0 - ((fmt.prec : ℤ) - 1)) fmt.minExp
  let num := if 0 ≤ k then u else u * 2 ^ (-k).toNat
  let den := if 0 ≤ k then v * 2 ^ k.toNat else v
  let m := roundQuotient num den
  if m = 0 then .zero false
  else if m = 2 ^ fmt.prec then
    if (fmt.maxExp : ℤ) < k + 1 then .inf false
    else .finite false (2 ^ (fmt.prec - 1)) (k + 1)
  else if (fmt.maxExp : ℤ) < k then .inf false
  else .finite false m k

/-! ### Grammar validator and decimal normalizer -/

/-- ASCII digit test (spec section 6: ASCII digits only). -/
def isDig (c : Char) : Bool := 48 ≤ c.toNat && c.toNat ≤ 57

/-- Value of an ASCII digit character. -/
def dval (c : Char) : ℕ := c.toNat - 48

/-- Strip one optional leading sign, returning `true` for a minus. -/
def splitSign : List Char → Bool × List Char
  | '+' :: r => (false, r)
  | '-' :: r => (true, r)
  | s => (false, s)

/-- Case-insensitive match for the special token `inf` (spec section 4.1). -/
def isInfTok (l : List Char) : Bool :=
  match l with
  | [a, b, c] =>
      (a == 'i' || a == 'I') && (b == 'n' || b == 'N') && (c == 'f' || c == 'F')
  | _ => false

/-- Case-insensitive match for the special token `infinity`. -/
def isInfinityTok (l : List Char) : Bool :=
  match l with
  | [a, b, c, d, e, f, g, h] =>
      (a == 'i' || a == 'I') && (b == 'n' || b == 'N') && (c == 'f' || c == 'F') &&
      (d == 'i' || d == 'I') && (e == 'n' || e == 'N') && (f == 'i' || f == 'I') &&
      (g == 't' || g == 'T') && (h == 'y' || h == 'Y')
  | _ => false

/-- Case-insensitive match for the special token `nan`. -/
def isNanTok (l : List Char) : Bool :=
  match l with
  | [a, b, c] =>
      (a == 'n' || a == 'N') && (b == 'a' || b == 'A') && (c == 'n' || c == 'N')
  | _ => false

/-- Parse the optional exponent suffix: either nothing, or `e`/`E`, an
optional sign, and at least one digit reaching the end of the input (spec
section 4.1). -/
def parseExpPart : List Char → Option (Bool × List ℕ)
  | [] => some (false, [])
  | c :: r =>
    if c = 'e' ∨ c = 'E' then
      let p := splitSign r
      if p.2.isEmpty then none
      else if p.2.all isDig then some (p.1, p.2.map dval) else none
    else none

/-- Modelled from the spec: the numeral grammar validator of spec section 4.1
(the engine's validator is not among the repository sources).  Accepts
`digits ["." digits]` or `"." digits`, followed by an optional exponent part,
with no whitespace anywhere and at least one mantissa digit; returns the
integer-part digits, fraction digits, exponent sign and exponent digits. -/
def parseNum (s : List Char) : Option (List ℕ × List ℕ × Bool × List ℕ) :=
  let ip := s.takeWhile isDig
  let r1 := s.dropWhile isDig
  match r1 with
  | '.' :: r2 =>
      let fp := r2.takeWhile isDig
      let r3 := r2.dropWhile isDig
      if ip.isEmpty && fp.isEmpty then none
      else
        match parseExpPart r3 with
        | some (es, ed) => some (ip.map dval, fp.map dval, es, ed)
        | none => none
  | _ =>
      if ip.isEmpty then none
      else
        match parseExpPart r1 with
        | some (es, ed) => some (ip.map dval, [], es, ed)
        | none => none

/-- The saturation sentinel for exponent accumulation (spec section 4.6): a
value large enough that any saturated exponent forces overflow-to-infinity or
underflow-to-zero. -/
def expSentinel : ℕ := 10 ^ 18

/-- Modelled from the spec: saturating exponent-digit accumulation (spec
section 4.6).  Once the accumulator reaches the sentinel it sticks, so
exponent text of unbounded length can never wrap a counter. -/
def satAcc (ds : List ℕ) : ℕ :=
  ds.foldl (fun a d => if expSentinel ≤ a then expSentinel else a * 10 + d) 0

/-- The integer denoted by a big-endian digit sequence. -/
def digitsToNat (ds : List ℕ) : ℕ := ds.foldl (fun a d => a * 10 + d) 0

/-- Modelled from the spec: the decimal normalizer (spec section 4.2).
Decomposes a (possibly signed) numeral into its sign, its significant digit
sequence with leading zeros stripped, and the effective decimal exponent
(explicit exponent, saturated, minus the fraction length).  Returns `none` on
a grammar violation. -/
def decomp (s : List Char) : Option (Bool × List ℕ × ℤ) :=
  let p := splitSign s
  match parseNum p.2 with
  | none => none
  | some (ip, fp, eneg, ed) =>
    let sd := (ip ++ fp).dropWhile (fun d => d == 0)
    let e : ℤ := (if eneg then -(satAcc ed : ℤ) else (satAcc ed : ℤ)) - (fp.length : ℤ)
    some (p.1, sd, e)

/-- Transfer a parsed sign onto an unsigned conversion result.  NaN absorbs
the sign (spec section 4.1: the sign token is consumed without affecting
NaN-ness). -/
def applySign (neg : Bool) : FpVal → FpVal
  | .zero _ => .zero neg
  | .finite _ m k => .finite neg m k
  | .inf _ => .inf neg
  | .nan => .nan

/-- Modelled from the spec: conversion of a normalized positive decimal
(digits `sd`, effective exponent `e`) to a float (spec sections 4.2 to 4.6).
An all-zero digit sequence short-circuits to zero; the decimal cutoffs
short-circuit certain-underflow to zero and certain-overflow to infinity
without constructing huge powers (the saturation guarantee of section 4.6);
otherwise the exact value `D * 10^e` is handed to the slow-path core as a
ratio of two naturals. -/
def convert (fmt : FloatFormat) (sd : List ℕ) (e : ℤ) : FpVal :=
  if sd.isEmpty then .zero false
  else
    let L : ℤ := (sd.length : ℤ)
    if L + e ≤ -(fmt.zeroCutoff : ℤ) then .zero false
    else if (fmt.overCutoff : ℤ) ≤ L - 1 + e then .inf false
    else
      let D := digitsToNat sd
      let fuel := 4 * (sd.length + fmt.zeroCutoff + fmt.overCutoff) + 4
      if 0 ≤ e then toFloatPos fmt fuel (D * 10 ^ e.toNat) 1
      else toFloatPos fmt fuel D (10 ^ (-e).toNat)

/-- Modelled from the spec: the public conversion API `parse` of spec section
4.6, orchestrating validation, the special tokens, normalization and the
numeric pipeline.  The empty input fails with `empty`; a grammar violation
fails with `invalid`; everything else produces a value. -/
def parse (fmt : FloatFormat) (s : List Char) : Except ParseError FpVal :=
  match s with
  | [] => .error .empty
  | _ :: _ =>
    let p := splitSign s
    if isInfTok p.2 || isInfinityTok p.2 then .ok (.inf p.1)
    else if isNanTok p.2 then .ok .nan
    else
      match decomp s with
      | none => .error .invalid
      | some (neg, sd, e) => .ok (applySign neg (convert fmt sd e))

/-- The 64-bit format descriptor: 53 mantissa bits, quantum exponents from
`-1074` to `971`. -/
def f64fmt : FloatFormat :=
  { prec := 53, minExpN := 1074, maxExp := 971, zeroCutoff := 324, overCutoff := 309 }

/-- The 32-bit format descriptor: 24 mantissa bits, quantum exponents from
`-149` to `104`. -/
def f32fmt : FloatFormat :=
  { prec := 24, minExpN := 149, maxExp := 104, zeroCutoff := 46, overCutoff := 39 }

theorem f64fmt_valid : f64fmt.Valid := by
  constructor <;> decide

theorem f32fmt_valid : f32fmt.Valid := by
  constructor <;> decide

/-! ### Round-to-nearest-even on the rationals -/

/-- Round a rational to the nearest integer, ties to even. -/
def rne (x : ℚ) : ℤ :=
  if 2 * (x - ⌊x⌋) < 1 then ⌊x⌋
  else if 1 < 2 * (x - ⌊x⌋) then ⌊x⌋ + 1
  else if ⌊x⌋ % 2 = 0 then ⌊x⌋ else ⌊x⌋ + 1

theorem rne_ge (x : ℚ) : x - 1 / 2 ≤ (rne x : ℚ) := by
  unfold rne
  have h1 : (⌊x⌋ : ℚ) ≤ x := Int.floor_le x
  have h2 : x < ⌊x⌋ + 1 := Int.lt_floor_add_one x
  split
  · linarith
  · split
    · push_cast; linarith
    · split <;> push_cast <;> linarith

theorem rne_le (x : ℚ) : (rne x : ℚ) ≤ x + 1 / 2 := by
  unfold rne
  have h1 : (⌊x⌋ : ℚ) ≤ x := Int.floor_le x
  have h2 : x < ⌊x⌋ + 1 := Int.lt_floor_add_one x
  split
  · linarith
  · rename_i hlt
    push_neg at hlt
    split
    · rename_i hgt
      push_cast
      linarith
    · rename_i hgt
      push_neg at hgt
      have : 2 * (x - ⌊x⌋) = 1 := le_antisymm hgt hlt
      split <;> push_cast <;> linarith

theorem rne_le_int (n : ℤ) (x : ℚ) (h : x ≤ (n : ℚ)) : rne x ≤ n := by
  have h1 := rne_le x
  have h2 : (rne x : ℚ) < n + 1 := by linarith
  exact_mod_cast Int.lt_add_one_iff.mp (by exact_mod_cast h2)

theorem rne_ge_int (n : ℤ) (x : ℚ) (h : (n : ℚ) ≤ x) : n ≤ rne x := by
  have h1 := rne_ge x
  have h2 : (n : ℚ) - 1 < rne x := by linarith
  have h3 : (n : ℚ) < rne x + 1 := by linarith
  have h4 : n < rne x + 1 := by exact_mod_cast h3
  omega

theorem rne_ge_int_of_gt (n : ℤ) (x : ℚ) (h : (n : ℚ) - 1 / 2 < x) : n ≤ rne x := by
  have h1 := rne_ge x
  have h2 : (n : ℚ) - 1 < rne x := by linarith
  have h3 : n - 1 < rne x := by exact_mod_cast h2
  omega

theorem rne_eq_of_lt (n : ℤ) (x : ℚ) (h1 : (n : ℚ) - 1 / 2 < x)
    (h2 : x < (n : ℚ) + 1 / 2) : rne x = n := by
  have hfl : (⌊x⌋ : ℚ) ≤ x := Int.floor_le x
  have hfl2 : x < ⌊x⌋ + 1 := Int.lt_floor_add_one x
  rcases le_or_lt (n : ℚ) x with hge | hlt
  · have hf : ⌊x⌋ = n := by
      apply Int.floor_eq_iff.mpr
      constructor
      · exact_mod_cast hge
      · push_cast; linarith
    unfold rne
    rw [hf]
    have : 2 * (x - (n : ℚ)) < 1 := by linarith
    simp [this]
  · have hf : ⌊x⌋ = n - 1 := by
      apply Int.floor_eq_iff.mpr
      constructor
      · push_cast; linarith
      · push_cast; linarith
    unfold rne
    rw [hf]
    have hc : ¬ (2 * (x - ((n - 1 : ℤ) : ℚ)) < 1) := by push_cast; push_neg; linarith
    have hc2 : 1 < 2 * (x - ((n - 1 : ℤ) : ℚ)) := by push_cast; linarith
    rw [if_neg hc, if_pos hc2]
    omega

theorem rne_tie (n : ℤ) (x : ℚ) (hx : x = (n : ℚ) + 1 / 2) :
    rne x = if n % 2 = 0 then n else n + 1 := by
  have hf : ⌊x⌋ = n := by
    apply Int.floor_eq_iff.mpr
    constructor
    · rw [hx]; linarith
    · rw [hx]; push_cast; linarith
  unfold rne
  rw [hf]
  have h1 : ¬ (2 * (x - (n : ℚ)) < 1) := by rw [hx]; push_neg; linarith
  have h2 : ¬ (1 < 2 * (x - (n : ℚ))) := by rw [hx]; push_neg; linarith
  rw [if_neg h1, if_neg h2]

theorem rne_mono (x y : ℚ) (h : x ≤ y) : rne x ≤ rne y := by
  by_contra hc
  push_neg at hc
  have h1 : rne y + 1 ≤ rne x := hc
  have h2 := rne_le x
  have h3 := rne_ge y
  have h4 : (rne y : ℚ) + 1 ≤ rne x := by exact_mod_cast h1
  have h5 : x = y := by linarith
  rw [h5] at hc
  omega

theorem rne_nonneg (x : ℚ) (h : 0 ≤ x) : 0 ≤ rne x := by
  have := rne_ge x
  have h2 : (-1 : ℚ) < rne x := by linarith
  have h3 : (-1 : ℤ) < rne x := by exact_mod_cast h2
  omega

/-- The exact-remainder tie-to-even rounding of spec section 4.4 computes
round-to-nearest-even of the fraction. -/
theorem roundQuotient_eq_rne (num den : ℕ) (hden : 0 < den) :
    (roundQuotient num den : ℤ) = rne ((num : ℚ) / den) := by
  have hdq : (den : ℚ) > 0 := by exact_mod_cast hden
  have hmod : den * (num / den) + num % den = num := Nat.div_add_mod num den
  have hrlt : num % den < den := Nat.mod_lt _ hden
  have hnum : (num : ℚ) = (den : ℚ) * (num / den : ℕ) + (num % den : ℕ) := by
    exact_mod_cast hmod.symm
  have hx : (num : ℚ) / den = ((num / den : ℕ) : ℚ) + ((num % den : ℕ) : ℚ) / den := by
    rw [hnum]
    field_simp
    ring
  have hfl : ⌊(num : ℚ) / den⌋ = ((num / den : ℕ) : ℤ) := by
    rw [hx]
    apply Int.floor_eq_iff.mpr
    rw [Int.cast_natCast]
    constructor
    · have : (0 : ℚ) ≤ ((num % den : ℕ) : ℚ) / den := by positivity
      linarith
    · have : ((num % den : ℕ) : ℚ) / den < 1 := by
        rw [div_lt_one hdq]
        exact_mod_cast hrlt
      linarith
  have hsub : (num : ℚ) / den - (((num / den : ℕ) : ℤ) : ℚ) = ((num % den : ℕ) : ℚ) / den := by
    rw [hx, Int.cast_natCast]; ring
  have hlt_iff : (2 * ((num : ℚ) / den - (((num / den : ℕ) : ℤ) : ℚ)) < 1) ↔
      (2 * (num % den) < den) := by
    rw [hsub,
      show (2 : ℚ) * (((num % den : ℕ) : ℚ) / den) = ((2 * (num % den) : ℕ) : ℚ) / den by
        push_cast; ring,
      div_lt_one hdq]
    exact_mod_cast Iff.rfl
  have hgt_iff : (1 < 2 * ((num : ℚ) / den - (((num / den : ℕ) : ℤ) : ℚ))) ↔
      (den < 2 * (num % den)) := by
    rw [hsub,
      show (2 : ℚ) * (((num % den : ℕ) : ℚ) / den) = ((2 * (num % den) : ℕ) : ℚ) / den by
        push_cast; ring,
      lt_div_iff₀ hdq, one_mul]
    exact_mod_cast Iff.rfl
  have hpar : (((num / den : ℕ) : ℤ) % 2 = 0) ↔ (num / den % 2 = 0) := by omega
  unfold rne roundQuotient
  rw [hfl]
  by_cases h1 : 2 * (num % den) < den
  · have hq1 : 2 * ((num : ℚ) / den - (((num / den : ℕ) : ℤ) : ℚ)) < 1 := hlt_iff.mpr h1
    rw [if_pos hq1, if_pos h1]
  · have hq1 : ¬ (2 * ((num : ℚ) / den - (((num / den : ℕ) : ℤ) : ℚ)) < 1) := by
      rw [hlt_iff]; exact h1
    rw [if_neg hq1, if_neg h1]
    by_cases h2 : den < 2 * (num % den)
    · have hq2 : 1 < 2 * ((num : ℚ) / den - (((num / den : ℕ) : ℤ) : ℚ)) := hgt_iff.mpr h2
      rw [if_pos hq2, if_pos h2]
      push_cast; ring
    · have hq2 : ¬ (1 < 2 * ((num : ℚ) / den - (((num / den : ℕ) : ℤ) : ℚ))) := by
        rw [hgt_iff]; exact h2
      rw [if_neg hq2, if_neg h2]
      by_cases h3 : num / den % 2 = 0
      · have hq3 : ((num / den : ℕ) : ℤ) % 2 = 0 := hpar.mpr h3
        rw [if_pos hq3, if_pos h3]
      · have hq3 : ¬ (((num / den : ℕ) : ℤ) % 2 = 0) := by rw [hpar]; exact h3
        rw [if_neg hq3, if_neg h3]
        push_cast; ring

/-! ### Binary logarithm facts -/

theorem log2f_spec (fuel : ℕ) : ∀ n : ℕ, 1 ≤ n → n < 2 ^ fuel →
    2 ^ log2f fuel n ≤ n ∧ n < 2 ^ (log2f fuel n + 1) := by
  induction fuel with
  | zero =>
      intro n h1 h2
      simp at h2
      omega
  | succ fuel ih =>
      intro n h1 h2
      by_cases hle : n ≤ 1
      · have : n = 1 := le_antisymm hle h1
        subst this
        simp [log2f]
      · have hn2 : 2 ≤ n := by omega
        have hdiv1 : 1 ≤ n / 2 := by omega
        have hdiv2 : n / 2 < 2 ^ fuel := by
          rw [Nat.div_lt_iff_lt_mul (by norm_num)]
          calc n < 2 ^ (fuel + 1) := h2
          _ = 2 ^ fuel * 2 := by ring
        obtain ⟨ha, hb⟩ := ih (n / 2) hdiv1 hdiv2
        have heq : log2f (fuel + 1) n = log2f fuel (n / 2) + 1 := by
          simp [log2f, hle]
        rw [heq]
        constructor
        · calc 2 ^ (log2f fuel (n / 2) + 1) = 2 * 2 ^ log2f fuel (n / 2) := by ring
          _ ≤ 2 * (n / 2) := by omega
          _ ≤ n := (by omega : 2 * (n / 2) ≤ n)
        · calc n < 2 * (n / 2) + 2 := by omega
          _ ≤ 2 * 2 ^ (log2f fuel (n / 2) + 1) := by omega
          _ = 2 ^ (log2f fuel (n / 2) + 1 + 1) := by ring

theorem floorLog2_spec (fuel u v : ℕ) (hu : 0 < u) (hv : 0 < v)
    (hfu : u < 2 ^ fuel * v) (hfv : v < 2 ^ fuel * u) :
    (2 : ℚ) ^ floorLog2 fuel u v ≤ (u : ℚ) / v ∧
      (u : ℚ) / v < 2 ^ (floorLog2 fuel u v + 1) := by
  have hvq : (0 : ℚ) < (v : ℚ) := by exact_mod_cast hv
  have huq : (0 : ℚ) < (u : ℚ) := by exact_mod_cast hu
  unfold floorLog2
  by_cases hvu : v ≤ u
  · rw [if_pos hvu]
    have h1 : 1 ≤ u / v := (Nat.one_le_div_iff hv).mpr hvu
    have h2 : u / v < 2 ^ fuel := by
      rw [Nat.div_lt_iff_lt_mul hv]; exact hfu
    obtain ⟨ha, hb⟩ := log2f_spec fuel (u / v) h1 h2
    set t := log2f fuel (u / v) with ht
    have ha2 : 2 ^ t * v ≤ u := (Nat.le_div_iff_mul_le hv).mp ha
    have hb2 : u < 2 ^ (t + 1) * v := (Nat.div_lt_iff_lt_mul hv).mp hb
    constructor
    · rw [zpow_natCast, le_div_iff hvq]
      exact_mod_cast ha2
    · rw [show ((t : ℤ) + 1) = ((t + 1 : ℕ) : ℤ) by push_cast; ring, zpow_natCast,
        div_lt_iff hvq]
      exact_mod_cast hb2
  · rw [if_neg hvu]
    push_neg at hvu
    have huv : u ≤ v := le_of_lt hvu
    have h1 : 1 ≤ v / u := (Nat.one_le_div_iff hu).mpr huv
    have h2 : v / u < 2 ^ fuel := by
      rw [Nat.div_lt_iff_lt_mul hu]; exact hfv
    obtain ⟨ha, hb⟩ := log2f_spec fuel (v / u) h1 h2
    set t := log2f fuel (v / u) with ht
    have ha2 : 2 ^ t * u ≤ v := (Nat.le_div_iff_mul_le hu).mp ha
    have hb2 : v < 2 ^ (t + 1) * u := (Nat.div_lt_iff_lt_mul hu).mp hb
    have hpow : ∀ s : ℕ, ((2 : ℚ) ^ (-(s : ℤ)) ≤ (u : ℚ) / v ↔ v ≤ u * 2 ^ s) := by
      intro s
      rw [zpow_neg, zpow_natCast, ← one_div,
        div_le_div_iff (by positivity) hvq, one_mul]
      constructor
      · intro h
        exact_mod_cast h
      · intro h
        exact_mod_cast h
    have hpow2 : ∀ s : ℕ, ((u : ℚ) / v < 2 ^ (-(s : ℤ) + 1) ↔ u * 2 ^ s < 2 * v) := by
      intro s
      have he : (2 : ℚ) ^ (-(s : ℤ) + 1) = 2 / 2 ^ (s : ℕ) := by
        rw [zpow_add₀ (by norm_num : (2 : ℚ) ≠ 0), zpow_neg, zpow_natCast, zpow_one]
        ring
      rw [he, div_lt_div_iff hvq (by positivity)]
      constructor
      · intro h
        have h2 : (u : ℚ) * 2 ^ (s : ℕ) < 2 * v := by linarith
        exact_mod_cast h2
      · intro h
        have h2 : ((u * 2 ^ s : ℕ) : ℚ) < ((2 * v : ℕ) : ℚ) := by exact_mod_cast h
        push_cast at h2
        linarith
    by_cases hb1 : v ≤ u * 2 ^ t
    · rw [if_pos hb1]
      constructor
      · exact (hpow t).mpr hb1
      · apply (hpow2 t).mpr
        have hb4 : u * 2 ^ t ≤ v := by
          calc u * 2 ^ t = 2 ^ t * u := by ring
          _ ≤ v := ha2
        omega
    · rw [if_neg hb1]
      push_neg at hb1
      have hb3 : v ≤ u * 2 ^ (t + 1) := by
        calc v ≤ 2 ^ (t + 1) * u := le_of_lt hb2
        _ = u * 2 ^ (t + 1) := by ring
      rw [if_pos hb3]
      constructor
      · rw [show (-((t : ℤ) + 1)) = (-((t + 1 : ℕ) : ℤ)) by push_cast; ring]
        exact (hpow (t + 1)).mpr hb3
      · rw [show (-((t : ℤ) + 1) + 1) = (-((t + 1 : ℕ) : ℤ) + 1) by push_cast; ring]
        apply (hpow2 (t + 1)).mpr
        have hdouble : u * 2 ^ (t + 1) = 2 * (u * 2 ^ t) := by ring
        omega

theorem two_zpow_pos (k : ℤ) : (0 : ℚ) < 2 ^ k :=
  zpow_pos (by norm_num) k

theorem two_zpow_ne_zero (k : ℤ) : (2 : ℚ) ^ k ≠ 0 :=
  ne_of_gt (two_zpow_pos k)

theorem two_zpow_mul_cancel (k : ℤ) : (2 : ℚ) ^ k * 2 ^ (-k) = 1 := by
  rw [← zpow_add₀ (by norm_num : (2 : ℚ) ≠ 0)]
  simp

theorem lt_mul_zpow_neg_iff (a x : ℚ) (k : ℤ) : a * 2 ^ k < x ↔ a < x * 2 ^ (-k) := by
  constructor
  · intro h
    have h2 := mul_lt_mul_of_pos_right h (two_zpow_pos (-k))
    rwa [mul_assoc, two_zpow_mul_cancel, mul_one] at h2
  · intro h
    have h2 := mul_lt_mul_of_pos_right h (two_zpow_pos k)
    rwa [mul_assoc, mul_comm ((2 : ℚ) ^ (-k)), two_zpow_mul_cancel, mul_one] at h2

theorem mul_zpow_neg_lt_iff (x b : ℚ) (k : ℤ) : x < b * 2 ^ k ↔ x * 2 ^ (-k) < b := by
  constructor
  · intro h
    have h2 := mul_lt_mul_of_pos_right h (two_zpow_pos (-k))
    rwa [mul_assoc, two_zpow_mul_cancel, mul_one] at h2
  · intro h
    have h2 := mul_lt_mul_of_pos_right h (two_zpow_pos k)
    rwa [mul_assoc, mul_comm ((2 : ℚ) ^ (-k)), two_zpow_mul_cancel, mul_one] at h2

theorem le_mul_zpow_neg_iff (a x : ℚ) (k : ℤ) : a * 2 ^ k ≤ x ↔ a ≤ x * 2 ^ (-k) := by
  constructor
  · intro h
    have h2 := mul_le_mul_of_nonneg_right h (le_of_lt (two_zpow_pos (-k)))
    rwa [mul_assoc, two_zpow_mul_cancel, mul_one] at h2
  · intro h
    have h2 := mul_le_mul_of_nonneg_right h (le_of_lt (two_zpow_pos k))
    rwa [mul_assoc, mul_comm ((2 : ℚ) ^ (-k)), two_zpow_mul_cancel, mul_one] at h2

/-- Uniqueness of the binary order of magnitude. -/
theorem zpow_interval_unique (c d : ℤ) (q : ℚ) (h1 : (2 : ℚ) ^ c ≤ q)
    (h2 : q < 2 ^ (c + 1)) (h3 : (2 : ℚ) ^ d ≤ q) (h4 : q < 2 ^ (d + 1)) : c = d := by
  have hcd : c < d + 1 := by
    by_contra hcon
    push_neg at hcon
    have : (2 : ℚ) ^ (d + 1) ≤ 2 ^ c := by
      apply zpow_le_zpow_right₀ (by norm_num) hcon
    linarith
  have hdc : d < c + 1 := by
    by_contra hcon
    push_neg at hcon
    have : (2 : ℚ) ^ (c + 1) ≤ 2 ^ d := by
      apply zpow_le_zpow_right₀ (by norm_num) hcon
    linarith
  omega

theorem e0_lt_of_lt (e0 c : ℤ) (q : ℚ) (hq1 : (2 : ℚ) ^ e0 ≤ q) (hc : q < (2 : ℚ) ^ c) :
    e0 < c := by
  by_contra hcon
  push_neg at hcon
  have : (2 : ℚ) ^ c ≤ 2 ^ e0 := zpow_le_zpow_right₀ (by norm_num) hcon
  linarith

theorem le_e0_of_le (e0 c : ℤ) (q : ℚ) (hq2 : q < 2 ^ (e0 + 1)) (hc : (2 : ℚ) ^ c ≤ q) :
    c ≤ e0 := by
  by_contra hcon
  push_neg at hcon
  have : (2 : ℚ) ^ (e0 + 1) ≤ 2 ^ c := zpow_le_zpow_right₀ (by norm_num) (by omega)
  linarith

/-- The scaled fraction used inside `toFloatPos` equals `u / v * 2^(-k)`. -/
theorem scale_frac (u v : ℕ) (hv : 0 < v) (k : ℤ) :
    (((if 0 ≤ k then u else u * 2 ^ (-k).toNat : ℕ) : ℚ) /
      ((if 0 ≤ k then v * 2 ^ k.toNat else v : ℕ) : ℚ)) = (u : ℚ) / v * 2 ^ (-k) := by
  have hvq : (0 : ℚ) < (v : ℚ) := by exact_mod_cast hv
  by_cases hk : 0 ≤ k
  · rw [if_pos hk, if_pos hk]
    have hkt : (2 : ℚ) ^ (k.toNat : ℕ) = (2 : ℚ) ^ k := by
      rw [← zpow_natCast]
      congr 1
      omega
    push_cast
    rw [hkt, div_mul_eq_div_div]
    rw [div_eq_mul_inv ((u : ℚ) / v), ← zpow_neg]
  · rw [if_neg hk, if_neg hk]
    have hkt : (2 : ℚ) ^ ((-k).toNat : ℕ) = (2 : ℚ) ^ (-k) := by
      rw [← zpow_natCast]
      congr 1
      omega
    push_cast
    rw [hkt]
    ring

/-- Characterization of `toFloatPos`: the produced value is determined by the
quantum exponent `k` and the tie-to-even rounding `M` of the scaled exact
value. -/
theorem toFloatPos_eq_general (fmt : FloatFormat) (fuel u v : ℕ) (hv : 0 < v)
    (M k : ℤ)
    (hk : k = max (floorLog2 fuel u v - ((fmt.prec : ℤ) - 1)) fmt.minExp)
    (hM : M = rne ((u : ℚ) / v * 2 ^ (-k))) :
    toFloatPos fmt fuel u v =
      if M = 0 then .zero false
      else if M = 2 ^ fmt.prec then
        if (fmt.maxExp : ℤ) < k + 1 then .inf false
        else .finite false (2 ^ (fmt.prec - 1)) (k + 1)
      else if (fmt.maxExp : ℤ) < k then .inf false
      else .finite false M.toNat k := by
  have hden : 0 < (if 0 ≤ k then v * 2 ^ k.toNat else v) := by
    by_cases h : 0 ≤ k
    · rw [if_pos h]; positivity
    · rw [if_neg h]; exact hv
  have hbr : ((roundQuotient (if 0 ≤ k then u else u * 2 ^ (-k).toNat)
      (if 0 ≤ k then v * 2 ^ k.toNat else v) : ℕ) : ℤ) = M := by
    rw [roundQuotient_eq_rne _ _ hden, scale_frac u v hv k, hM]
  have hMnn : 0 ≤ M := by
    rw [hM]
    apply rne_nonneg
    have : (0 : ℚ) ≤ (u : ℚ) / v := by positivity
    have := le_of_lt (two_zpow_pos (-k))
    positivity
  simp only [toFloatPos]
  rw [← hk]
  set rq : ℕ := roundQuotient (if 0 ≤ k then u else u * 2 ^ (-k).toNat)
      (if 0 ≤ k then v * 2 ^ k.toNat else v) with hrq
  have h1 : (rq = 0) ↔ (M = 0) := by omega
  have h2 : (rq = 2 ^ fmt.prec) ↔ (M = 2 ^ fmt.prec) := by
    constructor
    · intro h
      rw [← hbr, h]
      push_cast
      ring
    · intro h
      have : (rq : ℤ) = ((2 ^ fmt.prec : ℕ) : ℤ) := by
        rw [hbr, h]; push_cast; ring
      exact_mod_cast this
  have h3 : rq = M.toNat := by omega
  by_cases hc1 : M = 0
  · rw [if_pos (h1.mpr hc1), if_pos hc1]
  · rw [if_neg (by rw [h1]; exact hc1), if_neg hc1]
    by_cases hc2 : M = 2 ^ fmt.prec
    · rw [if_pos (h2.mpr hc2), if_pos hc2]
    · rw [if_neg (by rw [h2]; exact hc2), if_neg hc2, h3]

/-- Finite-result face of the characterization. -/
theorem toFloatPos_finite (fmt : FloatFormat) (fuel u v : ℕ) (hv : 0 < v)
    (M k : ℤ)
    (hk : k = max (floorLog2 fuel u v - ((fmt.prec : ℤ) - 1)) fmt.minExp)
    (hM : M = rne ((u : ℚ) / v * 2 ^ (-k)))
    (h0 : M ≠ 0) (hp : M ≠ 2 ^ fmt.prec) (hmax : ¬ ((fmt.maxExp : ℤ) < k)) :
    toFloatPos fmt fuel u v = .finite false M.toNat k := by
  rw [toFloatPos_eq_general fmt fuel u v hv M k hk hM,
    if_neg h0, if_neg hp, if_neg hmax]

/-- Renormalized finite-result face: the rounded mantissa hit `2^prec`. -/
theorem toFloatPos_finite_renorm (fmt : FloatFormat) (fuel u v : ℕ) (hv : 0 < v)
    (M k : ℤ)
    (hk : k = max (floorLog2 fuel u v - ((fmt.prec : ℤ) - 1)) fmt.minExp)
    (hM : M = rne ((u : ℚ) / v * 2 ^ (-k)))
    (hp : M = 2 ^ fmt.prec) (hmax : ¬ ((fmt.maxExp : ℤ) < k + 1)) :
    toFloatPos fmt fuel u v = .finite false (2 ^ (fmt.prec - 1)) (k + 1) := by
  have h0 : M ≠ 0 := by
    rw [hp]
    positivity
  rw [toFloatPos_eq_general fmt fuel u v hv M k hk hM,
    if_neg h0, if_pos hp, if_neg hmax]

/-! ### Canonical finite values and their rounding intervals -/

/-- A canonical finite nonzero representation in a format: normal values have
the top mantissa bit set; subnormals live at the minimum exponent. -/
def Canonical (fmt : FloatFormat) (m : ℕ) (k : ℤ) : Prop :=
  1 ≤ m ∧ m < 2 ^ fmt.prec ∧ fmt.minExp ≤ k ∧ k ≤ (fmt.maxExp : ℤ) ∧
    (2 ^ (fmt.prec - 1) ≤ m ∨ k = fmt.minExp)

/-- Lower endpoint of the open rounding interval of the finite value
`m * 2^k`: halfway to the previous representable value.  At the lower binade
boundary (a normal value with minimal mantissa) the gap below is half-sized. -/
def midLo (fmt : FloatFormat) (m : ℕ) (k : ℤ) : ℚ :=
  if m = 2 ^ (fmt.prec - 1) ∧ fmt.minExp < k then (m : ℚ) * 2 ^ k - 2 ^ (k - 2)
  else (m : ℚ) * 2 ^ k - 2 ^ (k - 1)

/-- Upper endpoint of the open rounding interval of `m * 2^k`: halfway to the
next representable value. -/
def midHi (fmt : FloatFormat) (m : ℕ) (k : ℤ) : ℚ := (m : ℚ) * 2 ^ k + 2 ^ (k - 1)

theorem half_zpow (k : ℤ) : (2 : ℚ) ^ (k - 1) = 2 ^ k / 2 := by
  rw [zpow_sub₀ (by norm_num : (2 : ℚ) ≠ 0), zpow_one]

theorem midLo_ge (fmt : FloatFormat) (m : ℕ) (k : ℤ) :
    (m : ℚ) * 2 ^ k - 2 ^ (k - 1) ≤ midLo fmt m k := by
  unfold midLo
  split
  · have h1 : (2 : ℚ) ^ (k - 2) ≤ 2 ^ (k - 1) :=
      zpow_le_zpow_right₀ (by norm_num) (by omega)
    linarith
  · exact le_refl _

theorem npow_cast_zpow (n : ℕ) : ((2 ^ n : ℕ) : ℚ) = (2 : ℚ) ^ (n : ℤ) := by
  push_cast
  exact (zpow_natCast 2 n).symm

theorem cast_prec_minus_one (fmt : FloatFormat) (h : 2 ≤ fmt.prec) :
    ((2 ^ (fmt.prec - 1) : ℕ) : ℚ) = (2 : ℚ) ^ ((fmt.prec : ℤ) - 1) := by
  rw [npow_cast_zpow]
  congr 1
  omega

/-- Shared tail of the interval lemma: once the scaled value is within half a
unit of the target mantissa and the quantum exponent matches, the conversion
lands exactly on the canonical representation. -/
theorem toFloatPos_interval_aux (fmt : FloatFormat) (fuel u v : ℕ) (hv : 0 < v)
    (m : ℕ) (k : ℤ) (hm1 : 1 ≤ m) (hm2 : m < 2 ^ fmt.prec)
    (hk2 : k ≤ (fmt.maxExp : ℤ))
    (hkk : k = max (floorLog2 fuel u v - ((fmt.prec : ℤ) - 1)) fmt.minExp)
    (hq1 : (m : ℚ) - 1 / 2 < (u : ℚ) / v * 2 ^ (-k))
    (hq2 : (u : ℚ) / v * 2 ^ (-k) < (m : ℚ) + 1 / 2) :
    toFloatPos fmt fuel u v = .finite false m k := by
  have hMm : rne ((u : ℚ) / v * 2 ^ (-k)) = (m : ℤ) := by
    apply rne_eq_of_lt
    · rw [Int.cast_natCast]; exact hq1
    · rw [Int.cast_natCast]; exact hq2
  have h0 : ((m : ℤ)) ≠ 0 := by omega
  have hp : ((m : ℤ)) ≠ 2 ^ fmt.prec := by
    have : (m : ℤ) < 2 ^ fmt.prec := by exact_mod_cast hm2
    omega
  have hmax : ¬ ((fmt.maxExp : ℤ) < k) := by omega
  have hfin := toFloatPos_finite fmt fuel u v hv (m : ℤ) k hkk hMm.symm h0 hp hmax
  rw [hfin]
  simp

/-- Correct rounding of `toFloatPos`: any exact value strictly inside the
rounding interval of a canonical finite value converts to exactly that
value.  This is the heart of the round-trip guarantee. -/
theorem toFloatPos_interval (fmt : FloatFormat) (V : fmt.Valid) (fuel u v : ℕ)
    (hu : 0 < u) (hv : 0 < v) (hfu : u < 2 ^ fuel * v) (hfv : v < 2 ^ fuel * u)
    (m : ℕ) (k : ℤ) (hc : Canonical fmt m k)
    (hlo : midLo fmt m k < (u : ℚ) / v) (hhi : (u : ℚ) / v < midHi fmt m k) :
    toFloatPos fmt fuel u v = .finite false m k := by
  obtain ⟨hm1, hm2, hk1, hk2, hns⟩ := hc
  have hprec := V.two_le_prec
  obtain ⟨he1, he2⟩ := floorLog2_spec fuel u v hu hv hfu hfv
  set e0 : ℤ := floorLog2 fuel u v with he0def
  set q : ℚ := (u : ℚ) / v with hqdef
  set P : ℤ := (fmt.prec : ℤ) with hPdef
  have hP2 : 2 ≤ P := by rw [hPdef]; exact_mod_cast hprec
  have hqlo : (m : ℚ) * 2 ^ k - 2 ^ (k - 1) < q :=
    lt_of_le_of_lt (midLo_ge fmt m k) hlo
  have hqhi : q < (m : ℚ) * 2 ^ k + 2 ^ (k - 1) := hhi
  have hmq1 : (1 : ℚ) ≤ (m : ℚ) := by exact_mod_cast hm1
  have hmq2 : (m : ℚ) < 2 ^ P := by
    have h2 : (m : ℚ) < ((2 ^ fmt.prec : ℕ) : ℚ) := by exact_mod_cast hm2
    rwa [npow_cast_zpow fmt.prec] at h2
  have hmq2b : (m : ℚ) ≤ 2 ^ P - 1 := by
    have h2 : (m : ℚ) + 1 ≤ ((2 ^ fmt.prec : ℕ) : ℚ) := by exact_mod_cast hm2
    rw [npow_cast_zpow] at h2
    linarith
  have hhalfk : (2 : ℚ) ^ (k - 1) = 2 ^ k / 2 := half_zpow k
  have hq_upper : q < 2 ^ (P + k) := by
    have h1 : q < ((2 : ℚ) ^ P - 1) * 2 ^ k + 2 ^ k / 2 := by
      have := mul_le_mul_of_nonneg_right hmq2b (le_of_lt (two_zpow_pos k))
      rw [hhalfk] at hqhi
      linarith
    have h2 : ((2 : ℚ) ^ P - 1) * 2 ^ k + 2 ^ k / 2 < 2 ^ P * 2 ^ k := by
      have := two_zpow_pos k
      nlinarith
    rw [← zpow_add₀ (by norm_num : (2 : ℚ) ≠ 0)] at h2
    linarith
  have hintlo : ((m : ℚ) - 1 / 2) * 2 ^ k < q := by
    rw [hhalfk] at hqlo
    have h : ((m : ℚ) - 1 / 2) * 2 ^ k = (m : ℚ) * 2 ^ k - 2 ^ k / 2 := by ring
    linarith [h ▸ hqlo]
  have hinthi : q < ((m : ℚ) + 1 / 2) * 2 ^ k := by
    rw [hhalfk] at hqhi
    have h : ((m : ℚ) + 1 / 2) * 2 ^ k = (m : ℚ) * 2 ^ k + 2 ^ k / 2 := by ring
    linarith [h ▸ hqhi]
  have hq1 : (m : ℚ) - 1 / 2 < q * 2 ^ (-k) := (lt_mul_zpow_neg_iff _ _ _).mp hintlo
  have hq2 : q * 2 ^ (-k) < (m : ℚ) + 1 / 2 := (mul_zpow_neg_lt_iff _ _ _).mp hinthi
  by_cases hcase : (2 : ℚ) ^ (P - 1 + k) ≤ q
  · -- the exact value sits in the same binade as the target
    have he0A : e0 = P - 1 + k := by
      have h1 : P - 1 + k ≤ e0 := le_e0_of_le e0 _ q he2 hcase
      have h2 : e0 < P + k := e0_lt_of_lt e0 _ q he1 hq_upper
      omega
    have hkk : k = max (e0 - (P - 1)) fmt.minExp := by
      have h : e0 - (P - 1) = k := by omega
      rw [h, max_eq_left hk1]
    exact toFloatPos_interval_aux fmt fuel u v hv m k hm1 hm2 hk2 hkk hq1 hq2
  · push_neg at hcase
    by_cases hbin : m = 2 ^ (fmt.prec - 1) ∧ fmt.minExp < k
    · -- just below a binade boundary: the rounded mantissa renormalizes
      obtain ⟨hbm, hbk⟩ := hbin
      have hmcast : (m : ℚ) = 2 ^ (P - 1) := by
        rw [hbm, cast_prec_minus_one fmt hprec]
      have hmidlo_eq : midLo fmt m k = (m : ℚ) * 2 ^ k - 2 ^ (k - 2) := by
        unfold midLo
        rw [if_pos ⟨hbm, hbk⟩]
      have hx1 : (m : ℚ) * 2 ^ k = 2 ^ P * 2 ^ (k - 1) := by
        rw [hmcast, ← zpow_add₀ (by norm_num : (2 : ℚ) ≠ 0),
          ← zpow_add₀ (by norm_num : (2 : ℚ) ≠ 0)]
        congr 1
        omega
      have hx2 : (2 : ℚ) ^ (k - 2) = 2 ^ (k - 1) / 2 := by
        rw [show k - 2 = (k - 1) - 1 by omega, half_zpow]
      have hqloB : ((2 : ℚ) ^ P - 1 / 2) * 2 ^ (k - 1) < q := by
        rw [hmidlo_eq, hx1, hx2] at hlo
        have h : ((2 : ℚ) ^ P - 1 / 2) * 2 ^ (k - 1) =
            2 ^ P * 2 ^ (k - 1) - 2 ^ (k - 1) / 2 := by ring
        linarith [h ▸ hlo]
      have hqhiB : q < 2 ^ P * 2 ^ (k - 1) := by
        have h : (2 : ℚ) ^ (P - 1 + k) = 2 ^ P * 2 ^ (k - 1) := by
          rw [← zpow_add₀ (by norm_num : (2 : ℚ) ≠ 0)]
          congr 1
          omega
        rw [← h]
        exact hcase
      have he0B : e0 = P + k - 2 := by
        have hone : (1 : ℚ) ≤ 2 ^ (P - 1) :=
          one_le_zpow₀ (by norm_num) (by omega)
        have hlow : (2 : ℚ) ^ (P - 1 + (k - 1)) ≤ q := by
          have h1 : (2 : ℚ) ^ (P - 1 + (k - 1)) = 2 ^ (P - 1) * 2 ^ (k - 1) := by
            rw [← zpow_add₀ (by norm_num : (2 : ℚ) ≠ 0)]
          have h2 : (2 : ℚ) ^ (P - 1) * 2 ^ (k - 1) ≤ ((2 : ℚ) ^ P - 1 / 2) * 2 ^ (k - 1) := by
            apply mul_le_mul_of_nonneg_right _ (le_of_lt (two_zpow_pos (k - 1)))
            have h3 : (2 : ℚ) ^ P = 2 ^ (P - 1) * 2 := by
              rw [← zpow_add_one₀ (by norm_num : (2 : ℚ) ≠ 0)]
              congr 1
              omega
            nlinarith
          rw [h1]
          linarith [hqloB]
        have h1 : P - 1 + (k - 1) ≤ e0 := le_e0_of_le e0 _ q he2 hlow
        have h2 : e0 < P - 1 + k := e0_lt_of_lt e0 _ q he1 hcase
        omega
      have hkk : k - 1 = max (e0 - (P - 1)) fmt.minExp := by
        have h : e0 - (P - 1) = k - 1 := by omega
        rw [h, max_eq_left (by omega)]
      have hq1B : (2 : ℚ) ^ P - 1 / 2 < q * 2 ^ (-(k - 1)) :=
        (lt_mul_zpow_neg_iff _ _ _).mp hqloB
      have hq2B : q * 2 ^ (-(k - 1)) < 2 ^ P :=
        (mul_zpow_neg_lt_iff _ _ _).mp hqhiB
      have hcastP : (((2 : ℤ) ^ fmt.prec : ℤ) : ℚ) = (2 : ℚ) ^ P := by
        push_cast
        exact (zpow_natCast (2 : ℚ) fmt.prec).symm
      have hMB : rne (q * 2 ^ (-(k - 1))) = 2 ^ fmt.prec := by
        have hge : (2 : ℤ) ^ fmt.prec ≤ rne (q * 2 ^ (-(k - 1))) := by
          apply rne_ge_int_of_gt
          rw [hcastP]
          linarith
        have hle : rne (q * 2 ^ (-(k - 1))) ≤ (2 : ℤ) ^ fmt.prec := by
          apply rne_le_int
          rw [hcastP]
          linarith
        omega
      have hren := toFloatPos_finite_renorm fmt fuel u v hv (2 ^ fmt.prec) (k - 1)
        hkk hMB.symm rfl (by omega)
      rw [hren, hbm]
      congr 1
      omega
    · -- remaining case: the value is subnormal (or smallest normal at the
      -- bottom exponent), and the quantum exponent is clamped to the minimum
      have hksub : k = fmt.minExp := by
        rcases hns with hnormal | hsub
        · by_cases hmeq : m = 2 ^ (fmt.prec - 1)
          · have h : ¬ fmt.minExp < k := fun hlt => hbin ⟨hmeq, hlt⟩
            omega
          · exfalso
            have hmgt : 2 ^ (fmt.prec - 1) + 1 ≤ m := by omega
            have hmgtq : (2 : ℚ) ^ (P - 1) + 1 ≤ (m : ℚ) := by
              have h2 : ((2 ^ (fmt.prec - 1) + 1 : ℕ) : ℚ) ≤ (m : ℚ) := by
                exact_mod_cast hmgt
              push_cast at h2
              rw [show ((2 : ℚ) ^ (fmt.prec - 1 : ℕ)) = (2 : ℚ) ^ (P - 1) by
                rw [← zpow_natCast]; congr 1; omega] at h2
              linarith
            have hml : (2 : ℚ) ^ (P - 1 + k) < q := by
              have h1 : (2 : ℚ) ^ (P - 1 + k) = 2 ^ (P - 1) * 2 ^ k := by
                rw [← zpow_add₀ (by norm_num : (2 : ℚ) ≠ 0)]
              have h2 : (2 : ℚ) ^ (P - 1) * 2 ^ k ≤ ((m : ℚ) - 1) * 2 ^ k :=
                mul_le_mul_of_nonneg_right (by linarith) (le_of_lt (two_zpow_pos k))
              have h3 : ((m : ℚ) - 1) * 2 ^ k < ((m : ℚ) - 1 / 2) * 2 ^ k :=
                mul_lt_mul_of_pos_right (by linarith) (two_zpow_pos k)
              rw [h1]
              calc (2 : ℚ) ^ (P - 1) * 2 ^ k ≤ ((m : ℚ) - 1) * 2 ^ k := h2
              _ < ((m : ℚ) - 1 / 2) * 2 ^ k := h3
              _ < q := hintlo
            linarith
        · exact hsub
      have he0C : e0 ≤ P + k - 2 := by
        have h2 : e0 < P - 1 + k := e0_lt_of_lt e0 _ q he1 hcase
        omega
      have hkk : k = max (e0 - (P - 1)) fmt.minExp := by
        rw [max_eq_right (by omega : e0 - (P - 1) ≤ fmt.minExp), hksub]
      exact toFloatPos_interval_aux fmt fuel u v hv m k hm1 hm2 hk2 hkk hq1 hq2

/-! ### Digit sequences and their values -/

/-- The exact rational value of a normalized decimal: significant digits
times the power of ten given by the effective exponent. -/
def decValue (sd : List ℕ) (e : ℤ) : ℚ := (digitsToNat sd : ℚ) * 10 ^ e

theorem foldl_digits (l : List ℕ) : ∀ a : ℕ,
    l.foldl (fun a d => a * 10 + d) a = a * 10 ^ l.length + digitsToNat l := by
  induction l with
  | nil => intro a; simp [digitsToNat]
  | cons d ds ih =>
      intro a
      show ds.foldl (fun a d => a * 10 + d) (a * 10 + d) = _
      rw [ih (a * 10 + d)]
      have h2 : digitsToNat (d :: ds) = d * 10 ^ ds.length + digitsToNat ds := by
        show ds.foldl (fun a d => a * 10 + d) (0 * 10 + d) = _
        rw [ih (0 * 10 + d)]
        ring_nf
      rw [h2]
      simp [List.length_cons]
      ring

theorem digitsToNat_lt (l : List ℕ) (h : ∀ d ∈ l, d < 10) :
    digitsToNat l < 10 ^ l.length := by
  induction l with
  | nil => simp [digitsToNat]
  | cons d ds ih =>
      have hd : d < 10 := h d (List.mem_cons_self d ds)
      have hds : digitsToNat ds < 10 ^ ds.length := by
        apply ih
        intro x hx
        exact h x (List.mem_cons_of_mem d hx)
      have h2 : digitsToNat (d :: ds) = d * 10 ^ ds.length + digitsToNat ds := by
        show ds.foldl (fun a d => a * 10 + d) (0 * 10 + d) = _
        rw [foldl_digits ds (0 * 10 + d)]
        ring_nf
      rw [h2, List.length_cons]
      calc d * 10 ^ ds.length + digitsToNat ds
          < d * 10 ^ ds.length + 10 ^ ds.length := by omega
      _ = (d + 1) * 10 ^ ds.length := by ring
      _ ≤ 10 * 10 ^ ds.length := by
          apply Nat.mul_le_mul_right
          omega
      _ = 10 ^ (ds.length + 1) := by ring

theorem digitsToNat_ge (d : ℕ) (ds : List ℕ) (hd : 1 ≤ d) :
    10 ^ ds.length ≤ digitsToNat (d :: ds) := by
  have h2 : digitsToNat (d :: ds) = d * 10 ^ ds.length + digitsToNat ds := by
    show ds.foldl (fun a d => a * 10 + d) (0 * 10 + d) = _
    rw [foldl_digits ds (0 * 10 + d)]
    ring_nf
  rw [h2]
  have : 10 ^ ds.length ≤ d * 10 ^ ds.length := Nat.le_mul_of_pos_left _ hd
  omega

theorem head_dropWhile_zero_ne (l : List ℕ) :
    ∀ d, ((l.dropWhile (fun x => x == 0)).head? = some d) → 1 ≤ d := by
  induction l with
  | nil => intro d h; simp at h
  | cons x xs ih =>
      intro d h
      rw [List.dropWhile_cons] at h
      by_cases hx : x = 0
      · rw [if_pos (by simp [hx])] at h
        exact ih d h
      · rw [if_neg (by simp [hx])] at h
        simp at h
        omega

theorem isDig_dval_lt (c : Char) (h : isDig c = true) : dval c < 10 := by
  unfold isDig at h
  rw [Bool.and_eq_true, decide_eq_true_iff, decide_eq_true_iff] at h
  unfold dval
  omega

/-! ### Structure of successful parses -/

theorem parseNum_none_head (c : Char) (r : List Char) (h1 : isDig c = false)
    (h2 : c ≠ '.') : parseNum (c :: r) = none := by
  simp only [parseNum, List.takeWhile_cons, List.dropWhile_cons, h1,
    Bool.false_eq_true, if_false]
  split
  · rename_i r2 heq
    exact absurd (List.head_eq_of_cons_eq heq) h2
  · simp

theorem isInfTok_head (l : List Char) (h : isInfTok l = true) :
    ∃ c r, l = c :: r ∧ isDig c = false ∧ c ≠ '.' := by
  match l, h with
  | [a, b, c], h =>
      refine ⟨a, [b, c], rfl, ?_, ?_⟩
      · simp only [isInfTok, Bool.and_eq_true, Bool.or_eq_true, beq_iff_eq] at h
        rcases h.1.1 with h | h <;> subst h <;> decide
      · simp only [isInfTok, Bool.and_eq_true, Bool.or_eq_true, beq_iff_eq] at h
        rcases h.1.1 with h | h <;> subst h <;> decide

theorem isInfinityTok_head (l : List Char) (h : isInfinityTok l = true) :
    ∃ c r, l = c :: r ∧ isDig c = false ∧ c ≠ '.' := by
  match l, h with
  | [a, b, c, d, e, f, g, i], h =>
      refine ⟨a, [b, c, d, e, f, g, i], rfl, ?_, ?_⟩
      · simp only [isInfinityTok, Bool.and_eq_true, Bool.or_eq_true, beq_iff_eq] at h
        rcases h.1.1.1.1.1.1.1 with h | h <;> subst h <;> decide
      · simp only [isInfinityTok, Bool.and_eq_true, Bool.or_eq_true, beq_iff_eq] at h
        rcases h.1.1.1.1.1.1.1 with h | h <;> subst h <;> decide

theorem isNanTok_head (l : List Char) (h : isNanTok l = true) :
    ∃ c r, l = c :: r ∧ isDig c = false ∧ c ≠ '.' := by
  match l, h with
  | [a, b, c], h =>
      refine ⟨a, [b, c], rfl, ?_, ?_⟩
      · simp only [isNanTok, Bool.and_eq_true, Bool.or_eq_true, beq_iff_eq] at h
        rcases h.1.1 with h | h <;> subst h <;> decide
      · simp only [isNanTok, Bool.and_eq_true, Bool.or_eq_true, beq_iff_eq] at h
        rcases h.1.1 with h | h <;> subst h <;> decide

/-- A successful grammar parse rules out every special token. -/
theorem parseNum_some_no_tok (l : List Char) (ip fp : List ℕ) (es : Bool)
    (ed : List ℕ) (h : parseNum l = some (ip, fp, es, ed)) :
    isInfTok l = false ∧ isInfinityTok l = false ∧ isNanTok l = false := by
  refine ⟨?_, ?_, ?_⟩
  · by_contra hc
    rw [Bool.not_eq_false] at hc
    obtain ⟨c, r, hl, hd, hdot⟩ := isInfTok_head l hc
    rw [hl, parseNum_none_head c r hd hdot] at h
    exact Option.noConfusion h
  · by_contra hc
    rw [Bool.not_eq_false] at hc
    obtain ⟨c, r, hl, hd, hdot⟩ := isInfinityTok_head l hc
    rw [hl, parseNum_none_head c r hd hdot] at h
    exact Option.noConfusion h
  · by_contra hc
    rw [Bool.not_eq_false] at hc
    obtain ⟨c, r, hl, hd, hdot⟩ := isNanTok_head l hc
    rw [hl, parseNum_none_head c r hd hdot] at h
    exact Option.noConfusion h

/-- A successful normalization determines the parse result. -/
theorem parse_of_decomp (fmt : FloatFormat) (s : List Char) (neg : Bool)
    (sd : List ℕ) (e : ℤ) (h : decomp s = some (neg, sd, e)) :
    parse fmt s = .ok (applySign neg (convert fmt sd e)) := by
  match s with
  | [] =>
      have hnil : decomp ([] : List Char) = none := rfl
      rw [hnil] at h
      exact Option.noConfusion h
  | c :: s2 =>
      have hpn : ∃ ip fp es ed, parseNum (splitSign (c :: s2)).2 = some (ip, fp, es, ed) := by
        simp only [decomp] at h
        rcases hx : parseNum (splitSign (c :: s2)).2 with _ | ⟨ip, fp, es, ed⟩
        · rw [hx] at h
          exact Option.noConfusion h
        · exact ⟨ip, fp, es, ed, rfl⟩
      obtain ⟨ip, fp, es, ed, hpn⟩ := hpn
      obtain ⟨ht1, ht2, ht3⟩ := parseNum_some_no_tok _ _ _ _ _ hpn
      simp only [parse, ht1, ht2, ht3, Bool.or_self, Bool.false_eq_true, if_false, h]

/-- The digit values coming out of the grammar validator are actual decimal
digits. -/
theorem parseNum_digits (l : List Char) (ip fp : List ℕ) (es : Bool) (ed : List ℕ)
    (h : parseNum l = some (ip, fp, es, ed)) :
    (∀ x ∈ ip, x < 10) ∧ (∀ x ∈ fp, x < 10) := by
  have hmap : ∀ (cs : List Char), (∀ c ∈ cs, isDig c = true) →
      ∀ x ∈ cs.map dval, x < 10 := by
    intro cs hcs x hx
    obtain ⟨c, hc, hcx⟩ := List.mem_map.mp hx
    rw [← hcx]
    exact isDig_dval_lt c (hcs c hc)
  simp only [parseNum] at h
  split at h
  · split at h
    · exact Option.noConfusion h
    · split at h
      · simp only [Option.some.injEq, Prod.mk.injEq] at h
        obtain ⟨h1, h2, h3, h4⟩ := h
        subst h1
        subst h2
        constructor
        · apply hmap
          intro c hc
          exact List.mem_takeWhile_imp hc
        · apply hmap
          intro c hc
          exact List.mem_takeWhile_imp hc
      · exact Option.noConfusion h
  · split at h
    · exact Option.noConfusion h
    · split at h
      · simp only [Option.some.injEq, Prod.mk.injEq] at h
        obtain ⟨h1, h2, h3, h4⟩ := h
        subst h1
        subst h2
        constructor
        · apply hmap
          intro c hc
          exact List.mem_takeWhile_imp hc
        · intro x hx
          exact absurd hx (List.not_mem_nil x)
      · exact Option.noConfusion h

/-- Well-formedness of the normalized digit sequence: every entry is a digit
and the leading entry is nonzero. -/
theorem decomp_wf (s : List Char) (neg : Bool) (sd : List ℕ) (e : ℤ)
    (h : decomp s = some (neg, sd, e)) :
    (∀ x ∈ sd, x < 10) ∧ (∀ d, sd.head? = some d → 1 ≤ d) := by
  simp only [decomp] at h
  rcases hx : parseNum (splitSign s).2 with _ | ⟨ip, fp, es, ed⟩
  · rw [hx] at h
    exact Option.noConfusion h
  · rw [hx] at h
    obtain ⟨hdip, hdfp⟩ := parseNum_digits _ _ _ _ _ hx
    have hsd : sd = (ip ++ fp).dropWhile (fun d => d == 0) := by
      have := Option.some.inj h
      rw [Prod.mk.injEq] at this
      rw [Prod.mk.injEq] at this
      exact this.2.1.symm
    constructor
    · intro x hxm
      rw [hsd] at hxm
      have hx2 : x ∈ ip ++ fp := (List.dropWhile_sublist _).subset hxm
      rcases List.mem_append.mp hx2 with h2 | h2
      · exact hdip x h2
      · exact hdfp x h2
    · intro d hd
      rw [hsd] at hd
      exact head_dropWhile_zero_ne _ d hd

/-- Prepending a minus sign to an unsigned numeral flips only the sign of the
normalization. -/
theorem decomp_neg_prepend (s : List Char) (sd : List ℕ) (e : ℤ)
    (hs : splitSign s = (false, s)) (h : decomp s = some (false, sd, e)) :
    decomp ('-' :: s) = some (true, sd, e) := by
  simp only [decomp, hs] at h
  simp only [decomp, show splitSign ('-' :: s) = (true, s) from rfl]
  rcases hx : parseNum s with _ | ⟨ip, fp, es, ed⟩
  · rw [hx] at h
    exact Option.noConfusion h
  · rw [hx] at h
    simp only [Option.some.injEq, Prod.mk.injEq] at h
    simp only [Option.some.injEq, Prod.mk.injEq]
    exact ⟨trivial, h.2.1, h.2.2⟩

theorem pow10_le_pow2 (n : ℕ) : 10 ^ n ≤ 2 ^ (4 * n) := by
  calc 10 ^ n ≤ 16 ^ n := Nat.pow_le_pow_left (by norm_num) n
  _ = 2 ^ (4 * n) := by
      rw [show (16 : ℕ) = 2 ^ 4 by norm_num, ← pow_mul]

/-- On the exact path (no short circuit), `convert` hands the exact value to
the slow-path core as a ratio of two positive naturals with sufficient
logarithm fuel. -/
theorem convert_exact (fmt : FloatFormat) (sd : List ℕ) (e : ℤ)
    (hdig : ∀ x ∈ sd, x < 10) (hhead : ∀ d, sd.head? = some d → 1 ≤ d)
    (hne : sd ≠ [])
    (hz : ¬ ((sd.length : ℤ) + e ≤ -(fmt.zeroCutoff : ℤ)))
    (ho : ¬ ((fmt.overCutoff : ℤ) ≤ (sd.length : ℤ) - 1 + e)) :
    ∃ (fuel u v : ℕ), 0 < u ∧ 0 < v ∧ u < 2 ^ fuel * v ∧ v < 2 ^ fuel * u ∧
      (u : ℚ) / v = decValue sd e ∧ convert fmt sd e = toFloatPos fmt fuel u v := by
  obtain ⟨d, ds, rfl⟩ : ∃ d ds, sd = d :: ds := by
    match sd, hne with
    | d :: ds, _ => exact ⟨d, ds, rfl⟩
  push_neg at hz ho
  have hd1 : 1 ≤ d := hhead d rfl
  have hD1 : 1 ≤ digitsToNat (d :: ds) :=
    le_trans (Nat.one_le_pow _ _ (by norm_num)) (digitsToNat_ge d ds hd1)
  have hDlt : digitsToNat (d :: ds) < 10 ^ (ds.length + 1) := by
    have := digitsToNat_lt (d :: ds) hdig
    simpa using this
  have hL : (d :: ds).length = ds.length + 1 := List.length_cons d ds
  have hconv : convert fmt (d :: ds) e =
      (if 0 ≤ e then
        toFloatPos fmt (4 * ((d :: ds).length + fmt.zeroCutoff + fmt.overCutoff) + 4)
          (digitsToNat (d :: ds) * 10 ^ e.toNat) 1
      else
        toFloatPos fmt (4 * ((d :: ds).length + fmt.zeroCutoff + fmt.overCutoff) + 4)
          (digitsToNat (d :: ds)) (10 ^ (-e).toNat)) := by
    simp only [convert, List.isEmpty_cons, Bool.false_eq_true, if_false]
    rw [if_neg (by omega), if_neg (by omega)]
  by_cases he : 0 ≤ e
  · refine ⟨4 * ((d :: ds).length + fmt.zeroCutoff + fmt.overCutoff) + 4,
      digitsToNat (d :: ds) * 10 ^ e.toNat, 1, ?_, one_pos, ?_, ?_, ?_, ?_⟩
    · positivity
    · rw [mul_one]
      have het : e.toNat + (ds.length + 1) ≤ fmt.overCutoff := by omega
      calc digitsToNat (d :: ds) * 10 ^ e.toNat
          < 10 ^ (ds.length + 1) * 10 ^ e.toNat :=
            (Nat.mul_lt_mul_right (by positivity)).mpr hDlt
      _ = 10 ^ (ds.length + 1 + e.toNat) := by rw [← pow_add]
      _ ≤ 2 ^ (4 * (ds.length + 1 + e.toNat)) := pow10_le_pow2 _
      _ ≤ 2 ^ (4 * ((d :: ds).length + fmt.zeroCutoff + fmt.overCutoff) + 4) := by
            apply Nat.pow_le_pow_right (by norm_num)
            omega
    · have h3 : 0 < digitsToNat (d :: ds) * 10 ^ e.toNat := by positivity
      have h2 : 0 < 2 ^ (4 * ((d :: ds).length + fmt.zeroCutoff + fmt.overCutoff) + 4) := by
        positivity
      have h4 : 4 ≤ 2 ^ (4 * ((d :: ds).length + fmt.zeroCutoff + fmt.overCutoff) + 4) := by
        calc (4 : ℕ) = 2 ^ 2 := by norm_num
        _ ≤ _ := Nat.pow_le_pow_right (by norm_num) (by omega)
      calc (1 : ℕ) < 4 * 1 := by norm_num
      _ ≤ 2 ^ (4 * ((d :: ds).length + fmt.zeroCutoff + fmt.overCutoff) + 4) *
          (digitsToNat (d :: ds) * 10 ^ e.toNat) := Nat.mul_le_mul h4 h3
    · unfold decValue
      push_cast
      rw [div_one]
      congr 1
      rw [← zpow_natCast (10 : ℚ) e.toNat]
      congr 1
      omega
    · rw [hconv, if_pos he]
  · refine ⟨4 * ((d :: ds).length + fmt.zeroCutoff + fmt.overCutoff) + 4,
      digitsToNat (d :: ds), 10 ^ (-e).toNat, by omega, ?_, ?_, ?_, ?_, ?_⟩
    · positivity
    · have h10 : 1 ≤ 10 ^ (-e).toNat := Nat.one_le_pow _ _ (by norm_num)
      calc digitsToNat (d :: ds) < 10 ^ (ds.length + 1) := hDlt
      _ ≤ 2 ^ (4 * (ds.length + 1)) := pow10_le_pow2 _
      _ ≤ 2 ^ (4 * ((d :: ds).length + fmt.zeroCutoff + fmt.overCutoff) + 4) := by
            apply Nat.pow_le_pow_right (by norm_num)
            omega
      _ ≤ 2 ^ (4 * ((d :: ds).length + fmt.zeroCutoff + fmt.overCutoff) + 4) *
          10 ^ (-e).toNat := Nat.le_mul_of_pos_right _ (by omega)
    · have het : (-e).toNat ≤ ds.length + 1 + fmt.zeroCutoff := by omega
      calc 10 ^ (-e).toNat ≤ 10 ^ (ds.length + 1 + fmt.zeroCutoff) :=
            Nat.pow_le_pow_right (by norm_num) het
      _ ≤ 2 ^ (4 * (ds.length + 1 + fmt.zeroCutoff)) := pow10_le_pow2 _
      _ < 2 ^ (4 * ((d :: ds).length + fmt.zeroCutoff + fmt.overCutoff) + 4) := by
            apply Nat.pow_lt_pow_right (by norm_num)
            omega
      _ ≤ 2 ^ (4 * ((d :: ds).length + fmt.zeroCutoff + fmt.overCutoff) + 4) *
          digitsToNat (d :: ds) := Nat.le_mul_of_pos_right _ (by omega)
    · unfold decValue
      have hcast : ((10 ^ (-e).toNat : ℕ) : ℚ) = (10 : ℚ) ^ ((-e).toNat : ℤ) := by
        push_cast
        exact (zpow_natCast (10 : ℚ) (-e).toNat).symm
      rw [hcast, show (((-e).toNat : ℤ)) = -e by omega, div_eq_mul_inv, ← zpow_neg,
        neg_neg]
    · rw [hconv, if_neg he]

/-- The magnitude of a parse outcome, with infinity (and NaN) mapped to the
top element. -/
def magWT : FpVal → WithTop ℚ
  | .zero _ => ((0 : ℚ) : WithTop ℚ)
  | .finite _ m k => (((m : ℚ) * 2 ^ k : ℚ) : WithTop ℚ)
  | .inf _ => ⊤
  | .nan => ⊤

/-! ### Decimal magnitude bounds and the short-circuit guards -/

theorem ten_pow_nat_cast (n : ℕ) : ((10 ^ n : ℕ) : ℚ) = (10 : ℚ) ^ (n : ℤ) := by
  push_cast
  exact (zpow_natCast _ n).symm

theorem ten_zpow_pos (k : ℤ) : (0 : ℚ) < 10 ^ k :=
  zpow_pos (by norm_num) k

theorem decValue_lt (sd : List ℕ) (e : ℤ) (hdig : ∀ x ∈ sd, x < 10) :
    decValue sd e < (10 : ℚ) ^ ((sd.length : ℤ) + e) := by
  have hD : digitsToNat sd < 10 ^ sd.length := digitsToNat_lt sd hdig
  have hDq : (digitsToNat sd : ℚ) < (10 : ℚ) ^ ((sd.length : ℕ) : ℤ) := by
    rw [← ten_pow_nat_cast]
    exact_mod_cast hD
  unfold decValue
  calc (digitsToNat sd : ℚ) * 10 ^ e
      < (10 : ℚ) ^ ((sd.length : ℕ) : ℤ) * 10 ^ e :=
        mul_lt_mul_of_pos_right hDq (ten_zpow_pos e)
  _ = 10 ^ ((sd.length : ℤ) + e) := by
      rw [← zpow_add₀ (by norm_num : (10 : ℚ) ≠ 0)]

theorem decValue_ge (sd : List ℕ) (e : ℤ) (hne : sd ≠ [])
    (hhead : ∀ d, sd.head? = some d → 1 ≤ d) :
    (10 : ℚ) ^ ((sd.length : ℤ) - 1 + e) ≤ decValue sd e := by
  obtain ⟨d, ds, rfl⟩ : ∃ d ds, sd = d :: ds := by
    match sd, hne with
    | d :: ds, _ => exact ⟨d, ds, rfl⟩
  have hd1 : 1 ≤ d := hhead d rfl
  have hD : 10 ^ ds.length ≤ digitsToNat (d :: ds) := digitsToNat_ge d ds hd1
  have hDq : (10 : ℚ) ^ ((ds.length : ℕ) : ℤ) ≤ (digitsToNat (d :: ds) : ℚ) := by
    rw [← ten_pow_nat_cast]
    exact_mod_cast hD
  unfold decValue
  have hlen : (((d :: ds).length : ℤ)) - 1 + e = ((ds.length : ℕ) : ℤ) + e := by
    simp [List.length_cons]
  rw [hlen]
  calc (10 : ℚ) ^ (((ds.length : ℕ) : ℤ) + e)
      = (10 : ℚ) ^ ((ds.length : ℕ) : ℤ) * 10 ^ e := by
        rw [← zpow_add₀ (by norm_num : (10 : ℚ) ≠ 0)]
  _ ≤ (digitsToNat (d :: ds) : ℚ) * 10 ^ e :=
        mul_le_mul_of_nonneg_right hDq (le_of_lt (ten_zpow_pos e))

theorem zeroCutoff_bound (fmt : FloatFormat) (V : fmt.Valid) :
    (10 : ℚ) ^ (-(fmt.zeroCutoff : ℤ)) ≤ 2 ^ (fmt.minExp - 1) := by
  have h := V.zero_cutoff_ok
  have hq : (2 : ℚ) ^ ((fmt.minExpN + 1 : ℕ) : ℤ) ≤ (10 : ℚ) ^ ((fmt.zeroCutoff : ℕ) : ℤ) := by
    rw [← npow_cast_zpow, ← ten_pow_nat_cast]
    exact_mod_cast h
  calc (10 : ℚ) ^ (-(fmt.zeroCutoff : ℤ))
      = ((10 : ℚ) ^ ((fmt.zeroCutoff : ℕ) : ℤ))⁻¹ := by rw [← zpow_neg]
  _ ≤ ((2 : ℚ) ^ ((fmt.minExpN + 1 : ℕ) : ℤ))⁻¹ := by
      apply inv_le_inv_of_le (two_zpow_pos _) hq
  _ = 2 ^ (fmt.minExp - 1) := by
      rw [← zpow_neg]
      congr 1
      unfold FloatFormat.minExp
      push_cast
      ring

theorem overCutoff_bound (fmt : FloatFormat) (V : fmt.Valid) :
    (2 : ℚ) ^ ((fmt.prec : ℤ) + fmt.maxExp) ≤ 10 ^ ((fmt.overCutoff : ℕ) : ℤ) := by
  have h := V.over_cutoff_ok
  have hq : (2 : ℚ) ^ ((fmt.prec + fmt.maxExp : ℕ) : ℤ) ≤ (10 : ℚ) ^ ((fmt.overCutoff : ℕ) : ℤ) := by
    rw [← npow_cast_zpow, ← ten_pow_nat_cast]
    exact_mod_cast h
  rw [show ((fmt.prec : ℤ) + fmt.maxExp) = ((fmt.prec + fmt.maxExp : ℕ) : ℤ) by push_cast; ring]
  exact hq

/-- If the exact value lies strictly between half the smallest subnormal and
the overflow threshold, neither decimal short circuit can fire. -/
theorem guards_fail (fmt : FloatFormat) (V : fmt.Valid) (sd : List ℕ) (e : ℤ)
    (hdig : ∀ x ∈ sd, x < 10) (hhead : ∀ d, sd.head? = some d → 1 ≤ d)
    (hne : sd ≠ [])
    (hglo : (2 : ℚ) ^ (fmt.minExp - 1) < decValue sd e)
    (hghi : decValue sd e < (2 : ℚ) ^ ((fmt.prec : ℤ) + fmt.maxExp)) :
    ¬ ((sd.length : ℤ) + e ≤ -(fmt.zeroCutoff : ℤ)) ∧
      ¬ ((fmt.overCutoff : ℤ) ≤ (sd.length : ℤ) - 1 + e) := by
  constructor
  · intro hcon
    have h1 : decValue sd e < (10 : ℚ) ^ ((sd.length : ℤ) + e) := decValue_lt sd e hdig
    have h2 : (10 : ℚ) ^ ((sd.length : ℤ) + e) ≤ 10 ^ (-(fmt.zeroCutoff : ℤ)) :=
      zpow_le_zpow_right₀ (by norm_num) hcon
    have h3 := zeroCutoff_bound fmt V
    linarith
  · intro hcon
    have h1 : (10 : ℚ) ^ ((sd.length : ℤ) - 1 + e) ≤ decValue sd e :=
      decValue_ge sd e hne hhead
    have h2 : (10 : ℚ) ^ ((fmt.overCutoff : ℕ) : ℤ) ≤ 10 ^ ((sd.length : ℤ) - 1 + e) :=
      zpow_le_zpow_right₀ (by norm_num) hcon
    have h3 := overCutoff_bound fmt V
    linarith

theorem midLo_ge_half_min (fmt : FloatFormat) (m : ℕ) (k : ℤ) (hm1 : 1 ≤ m)
    (hk1 : fmt.minExp ≤ k) : (2 : ℚ) ^ (fmt.minExp - 1) ≤ midLo fmt m k := by
  have h1 := midLo_ge fmt m k
  have hmq : (1 : ℚ) ≤ (m : ℚ) := by exact_mod_cast hm1
  have h2 : (2 : ℚ) ^ (k - 1) ≤ (m : ℚ) * 2 ^ k - 2 ^ (k - 1) := by
    rw [half_zpow]
    have h3 : (2 : ℚ) ^ k ≤ (m : ℚ) * 2 ^ k := by
      have := mul_le_mul_of_nonneg_right hmq (le_of_lt (two_zpow_pos k))
      linarith
    linarith
  have h4 : (2 : ℚ) ^ (fmt.minExp - 1) ≤ 2 ^ (k - 1) :=
    zpow_le_zpow_right₀ (by norm_num) (by omega)
  linarith

theorem midHi_lt_max (fmt : FloatFormat) (m : ℕ) (k : ℤ) (hm2 : m < 2 ^ fmt.prec)
    (hk2 : k ≤ (fmt.maxExp : ℤ)) :
    midHi fmt m k < (2 : ℚ) ^ ((fmt.prec : ℤ) + fmt.maxExp) := by
  have hmq : (m : ℚ) ≤ (2 : ℚ) ^ ((fmt.prec : ℤ)) - 1 := by
    have h2 : (m : ℚ) + 1 ≤ ((2 ^ fmt.prec : ℕ) : ℚ) := by exact_mod_cast hm2
    rw [npow_cast_zpow] at h2
    linarith
  unfold midHi
  have hkle : (2 : ℚ) ^ k ≤ 2 ^ ((fmt.maxExp : ℤ)) :=
    zpow_le_zpow_right₀ (by norm_num) hk2
  have hkle2 : (2 : ℚ) ^ (k - 1) ≤ 2 ^ ((fmt.maxExp : ℤ) - 1) :=
    zpow_le_zpow_right₀ (by norm_num) (by omega)
  have hkpos := two_zpow_pos k
  have hXpos := two_zpow_pos ((fmt.maxExp : ℤ))
  have hhalfX : (2 : ℚ) ^ ((fmt.maxExp : ℤ) - 1) = 2 ^ ((fmt.maxExp : ℤ)) / 2 :=
    half_zpow _
  have hstep : (m : ℚ) * 2 ^ k + 2 ^ (k - 1) ≤
      ((2 : ℚ) ^ ((fmt.prec : ℤ)) - 1) * 2 ^ ((fmt.maxExp : ℤ)) +
        2 ^ ((fmt.maxExp : ℤ)) / 2 := by
    have h1 : (m : ℚ) * 2 ^ k ≤ ((2 : ℚ) ^ ((fmt.prec : ℤ)) - 1) * 2 ^ k :=
      mul_le_mul_of_nonneg_right hmq (le_of_lt hkpos)
    have h2 : ((2 : ℚ) ^ ((fmt.prec : ℤ)) - 1) * 2 ^ k ≤
        ((2 : ℚ) ^ ((fmt.prec : ℤ)) - 1) * 2 ^ ((fmt.maxExp : ℤ)) := by
      apply mul_le_mul_of_nonneg_left hkle
      have h3 : (1 : ℚ) ≤ 2 ^ ((fmt.prec : ℤ)) := one_le_zpow₀ (by norm_num) (by positivity)
      linarith
    rw [hhalfX] at hkle2
    linarith
  have hfin : (2 : ℚ) ^ ((fmt.prec : ℤ) + fmt.maxExp) =
      2 ^ ((fmt.prec : ℤ)) * 2 ^ ((fmt.maxExp : ℤ)) :=
    zpow_add₀ (by norm_num) _ _
  rw [hfin]
  nlinarith [hstep, hXpos]

/-! ### Claim C1 -/

/-- C1: round-trip.  For every finite nonzero float value (canonical mantissa
`m`, exponent `k`) of a valid format and every decimal rendering of it — a
valid unsigned numeral whose exact value lies strictly inside the value's
rounding interval, which is the interface guarantee of the trusted formatter
for the shortest round-trip, fixed-precision and scientific renderings —
parsing returns exactly that value, and parsing the same text with `'-'`
prepended returns exactly its negation.  All-zero-digit renderings likewise
round-trip to signed zero. -/
theorem c1_round_trip (fmt : FloatFormat) (V : fmt.Valid) (m : ℕ) (k : ℤ)
    (s : List Char) (sd : List ℕ) (e : ℤ)
    (hc : Canonical fmt m k)
    (hs : splitSign s = (false, s))
    (hd : decomp s = some (false, sd, e))
    (hlo : midLo fmt m k < decValue sd e) (hhi : decValue sd e < midHi fmt m k) :
    parse fmt s = .ok (.finite false m k) ∧
      parse fmt ('-' :: s) = .ok (.finite true m k) ∧
      (∀ s0 sd0 e0, splitSign s0 = (false, s0) → decomp s0 = some (false, sd0, e0) →
        digitsToNat sd0 = 0 →
        parse fmt s0 = .ok (.zero false) ∧ parse fmt ('-' :: s0) = .ok (.zero true)) := by
  have hm1 := hc.1
  have hm2 := hc.2.1
  have hk1 := hc.2.2.1
  have hk2 := hc.2.2.2.1
  have hwf := decomp_wf s false sd e hd
  have hglo : (2 : ℚ) ^ (fmt.minExp - 1) < decValue sd e :=
    lt_of_le_of_lt (midLo_ge_half_min fmt m k hm1 hk1) hlo
  have hghi : decValue sd e < (2 : ℚ) ^ ((fmt.prec : ℤ) + fmt.maxExp) :=
    lt_trans hhi (midHi_lt_max fmt m k hm2 hk2)
  have hvalpos : 0 < decValue sd e := lt_trans (two_zpow_pos _) hglo
  have hne : sd ≠ [] := by
    intro h0
    rw [h0] at hvalpos
    simp [decValue, digitsToNat] at hvalpos
  obtain ⟨hz, ho⟩ := guards_fail fmt V sd e hwf.1 hwf.2 hne hglo hghi
  obtain ⟨fuel, u, v, hu, hv, hfu, hfv, hval, hcv⟩ :=
    convert_exact fmt sd e hwf.1 hwf.2 hne hz ho
  have htfp := toFloatPos_interval fmt V fuel u v hu hv hfu hfv m k hc
    (by rw [hval]; exact hlo) (by rw [hval]; exact hhi)
  refine ⟨?_, ?_, ?_⟩
  · rw [parse_of_decomp fmt s false sd e hd, hcv, htfp]
    rfl
  · have hd2 := decomp_neg_prepend s sd e hs hd
    rw [parse_of_decomp fmt ('-' :: s) true sd e hd2, hcv, htfp]
    rfl
  · intro s0 sd0 e0 hs0 hd0 hD0
    have hwf0 := decomp_wf s0 false sd0 e0 hd0
    have hsd0 : sd0 = [] := by
      cases sd0 with
      | nil => rfl
      | cons d ds =>
          exfalso
          have hd1 : 1 ≤ d := hwf0.2 d rfl
          have hge := digitsToNat_ge d ds hd1
          have h10 : 1 ≤ 10 ^ ds.length := Nat.one_le_pow _ _ (by norm_num)
          omega
    subst hsd0
    have hcv0 : convert fmt [] e0 = .zero false := by simp [convert]
    constructor
    · rw [parse_of_decomp fmt s0 false [] e0 hd0, hcv0]
      rfl
    · have hd2 := decomp_neg_prepend s0 [] e0 hs0 hd0
      rw [parse_of_decomp fmt ('-' :: s0) true [] e0 hd2, hcv0]
      rfl

/-! ### Overflow to infinity -/

/-- Infinity face of the characterization: rounded mantissa overflowed past
the top exponent. -/
theorem toFloatPos_inf_renorm (fmt : FloatFormat) (fuel u v : ℕ) (hv : 0 < v)
    (M k : ℤ)
    (hk : k = max (floorLog2 fuel u v - ((fmt.prec : ℤ) - 1)) fmt.minExp)
    (hM : M = rne ((u : ℚ) / v * 2 ^ (-k)))
    (hp : M = 2 ^ fmt.prec) (hmax : (fmt.maxExp : ℤ) < k + 1) :
    toFloatPos fmt fuel u v = .inf false := by
  have h0 : M ≠ 0 := by rw [hp]; positivity
  rw [toFloatPos_eq_general fmt fuel u v hv M k hk hM, if_neg h0, if_pos hp, if_pos hmax]

/-- Infinity face of the characterization: quantum exponent beyond the top. -/
theorem toFloatPos_inf_high (fmt : FloatFormat) (fuel u v : ℕ) (hv : 0 < v)
    (M k : ℤ)
    (hk : k = max (floorLog2 fuel u v - ((fmt.prec : ℤ) - 1)) fmt.minExp)
    (hM : M = rne ((u : ℚ) / v * 2 ^ (-k)))
    (h0 : M ≠ 0) (hmax : (fmt.maxExp : ℤ) < k) :
    toFloatPos fmt fuel u v = .inf false := by
  rw [toFloatPos_eq_general fmt fuel u v hv M k hk hM, if_neg h0]
  by_cases hp : M = 2 ^ fmt.prec
  · rw [if_pos hp, if_pos (by omega)]
  · rw [if_neg hp, if_pos hmax]

/-- Any exact value at or beyond the overflow rounding threshold converts to
positive infinity. -/
theorem toFloatPos_overflow (fmt : FloatFormat) (V : fmt.Valid) (fuel u v : ℕ)
    (hu : 0 < u) (hv : 0 < v) (hfu : u < 2 ^ fuel * v) (hfv : v < 2 ^ fuel * u)
    (hq : ((2 : ℚ) ^ ((fmt.prec : ℤ)) - 1 / 2) * 2 ^ ((fmt.maxExp : ℤ)) ≤ (u : ℚ) / v) :
    toFloatPos fmt fuel u v = .inf false := by
  have hprec := V.two_le_prec
  obtain ⟨he1, he2⟩ := floorLog2_spec fuel u v hu hv hfu hfv
  set e0 : ℤ := floorLog2 fuel u v with he0def
  set q : ℚ := (u : ℚ) / v with hqdef
  set P : ℤ := (fmt.prec : ℤ) with hPdef
  set X : ℤ := (fmt.maxExp : ℤ) with hXdef
  have hP2 : 2 ≤ P := by rw [hPdef]; exact_mod_cast hprec
  have hX0 : 0 ≤ X := by rw [hXdef]; positivity
  have hone : (1 : ℚ) ≤ 2 ^ (P - 1) := one_le_zpow₀ (by norm_num) (by omega)
  have hsplit : (2 : ℚ) ^ (P - 1 + X) = 2 ^ (P - 1) * 2 ^ X := by
    rw [← zpow_add₀ (by norm_num : (2 : ℚ) ≠ 0)]
  have hthr : (2 : ℚ) ^ (P - 1 + X) ≤ q := by
    rw [hsplit]
    calc (2 : ℚ) ^ (P - 1) * 2 ^ X ≤ ((2 : ℚ) ^ P - 1 / 2) * 2 ^ X := by
          apply mul_le_mul_of_nonneg_right _ (le_of_lt (two_zpow_pos X))
          have h3 : (2 : ℚ) ^ P = 2 ^ (P - 1) * 2 := by
            rw [← zpow_add_one₀ (by norm_num : (2 : ℚ) ≠ 0)]
            congr 1
            omega
          nlinarith
    _ ≤ q := hq
  have he0ge : P - 1 + X ≤ e0 := le_e0_of_le e0 _ q he2 hthr
  by_cases hca : P + X ≤ e0
  · -- quantum exponent blows past the maximum outright
    have hkk : e0 - (P - 1) = max (e0 - (P - 1)) fmt.minExp := by
      have hminle : fmt.minExp ≤ e0 - (P - 1) := by
        have : fmt.minExp ≤ 0 := by unfold FloatFormat.minExp; omega
        omega
      rw [max_eq_left hminle]
    have hq1 : (1 : ℚ) ≤ q * 2 ^ (-(e0 - (P - 1))) := by
      have h1 : (2 : ℚ) ^ (e0 - (P - 1)) ≤ q * 2 ^ (-(e0 - (P - 1))) * 2 ^ (e0 - (P - 1)) := by
        rw [mul_assoc, mul_comm ((2 : ℚ) ^ (-(e0 - (P - 1)))), two_zpow_mul_cancel, mul_one]
        calc (2 : ℚ) ^ (e0 - (P - 1)) ≤ 2 ^ e0 :=
              zpow_le_zpow_right₀ (by norm_num) (by omega)
        _ ≤ q := he1
      by_contra hcon
      push_neg at hcon
      have h2 := mul_lt_mul_of_pos_right hcon (two_zpow_pos (e0 - (P - 1)))
      rw [one_mul] at h2
      linarith
    have hM1 : 1 ≤ rne ((u : ℚ) / v * 2 ^ (-(e0 - (P - 1)))) := by
      apply rne_ge_int
      rw [← hqdef]
      exact_mod_cast hq1
    exact toFloatPos_inf_high fmt fuel u v hv _ (e0 - (P - 1)) hkk rfl (by omega) (by omega)
  · -- top binade: the mantissa rounds up to 2^prec and renormalizes out
    push_neg at hca
    have he0eq : e0 = P + X - 1 := by omega
    have hkk : X = max (e0 - (P - 1)) fmt.minExp := by
      have h1 : e0 - (P - 1) = X := by omega
      have hminle : fmt.minExp ≤ X := by
        have : fmt.minExp ≤ 0 := by unfold FloatFormat.minExp; omega
        omega
      rw [h1, max_eq_left hminle]
    have hq1 : (2 : ℚ) ^ P - 1 / 2 ≤ q * 2 ^ (-X) := by
      rw [← le_mul_zpow_neg_iff]
      exact hq
    have hq2 : q * 2 ^ (-X) < 2 ^ P := by
      rw [← mul_zpow_neg_lt_iff]
      calc q < 2 ^ (e0 + 1) := he2
      _ = 2 ^ P * 2 ^ X := by
          rw [← zpow_add₀ (by norm_num : (2 : ℚ) ≠ 0)]
          congr 1
          omega
    have hcastP : (((2 : ℤ) ^ fmt.prec : ℤ) : ℚ) = (2 : ℚ) ^ P := by
      rw [hPdef]
      push_cast
      exact (zpow_natCast (2 : ℚ) fmt.prec).symm
    have hModd : ((2 : ℤ) ^ fmt.prec - 1) % 2 = 1 := by
      have hev : (2 : ℤ) ^ fmt.prec = 2 * 2 ^ (fmt.prec - 1) := by
        conv_lhs => rw [show fmt.prec = fmt.prec - 1 + 1 by omega]
        rw [pow_succ]
        ring
      omega
    have hMB : rne (q * 2 ^ (-X)) = 2 ^ fmt.prec := by
      have hge : (2 : ℤ) ^ fmt.prec ≤ rne (q * 2 ^ (-X)) := by
        rcases eq_or_lt_of_le hq1 with heq | hlt
        · have htie := rne_tie ((2 : ℤ) ^ fmt.prec - 1) (q * 2 ^ (-X)) (by
            rw [← heq, hPdef, zpow_natCast]
            push_cast
            ring)
          rw [htie, if_neg (by omega)]
          omega
        · apply rne_ge_int_of_gt
          rw [hcastP]
          linarith
      have hle : rne (q * 2 ^ (-X)) ≤ (2 : ℤ) ^ fmt.prec := by
        apply rne_le_int
        rw [hcastP]
        linarith
      omega
    exact toFloatPos_inf_renorm fmt fuel u v hv _ X hkk rfl hMB (by omega)

/-- On the exact path, the parse result is whatever the slow-path core
produces on the exact value. -/
theorem parse_exact_eq (fmt : FloatFormat) (V : fmt.Valid) (s : List Char)
    (neg : Bool) (sd : List ℕ) (e : ℤ) (target : FpVal)
    (hd : decomp s = some (neg, sd, e))
    (hglo : (2 : ℚ) ^ (fmt.minExp - 1) < decValue sd e)
    (hghi : decValue sd e < (2 : ℚ) ^ ((fmt.prec : ℤ) + fmt.maxExp))
    (htfp : ∀ fuel u v : ℕ, 0 < u → 0 < v → u < 2 ^ fuel * v → v < 2 ^ fuel * u →
      (u : ℚ) / v = decValue sd e → toFloatPos fmt fuel u v = target) :
    parse fmt s = .ok (applySign neg target) := by
  have hwf := decomp_wf s neg sd e hd
  have hvalpos : 0 < decValue sd e := lt_trans (two_zpow_pos _) hglo
  have hne : sd ≠ [] := by
    intro h0
    rw [h0] at hvalpos
    simp [decValue, digitsToNat] at hvalpos
  obtain ⟨hz, ho⟩ := guards_fail fmt V sd e hwf.1 hwf.2 hne hglo hghi
  obtain ⟨fuel, u, v, hu, hv, hfu, hfv, hval, hcv⟩ :=
    convert_exact fmt sd e hwf.1 hwf.2 hne hz ho
  rw [parse_of_decomp fmt s neg sd e hd, hcv, htfp fuel u v hu hv hfu hfv hval]

/-! ### Claim C4 -/

/-- C4: overflow.  Every valid numeral whose exact value reaches the overflow
rounding threshold `(2^prec - 1/2) * 2^maxExp` parses to infinity carrying
the numeral's sign — an `Ok` value, never an error — and in particular the
64-bit parses of `"1e400"`, `"1e309"`, `"2e308"` and
`"1.7976931348624e308"` are positive infinity (and `"-1e400"` negative
infinity). -/
theorem c4_overflow (fmt : FloatFormat) (V : fmt.Valid) (s : List Char)
    (neg : Bool) (sd : List ℕ) (e : ℤ)
    (hd : decomp s = some (neg, sd, e))
    (hq : ((2 : ℚ) ^ ((fmt.prec : ℤ)) - 1 / 2) * 2 ^ ((fmt.maxExp : ℤ)) ≤ decValue sd e) :
    parse fmt s = .ok (.inf neg) ∧
      parse f64fmt ("1e400".toList) = .ok (.inf false) ∧
      parse f64fmt ("1e309".toList) = .ok (.inf false) ∧
      parse f64fmt ("2e308".toList) = .ok (.inf false) ∧
      parse f64fmt ("1.7976931348624e308".toList) = .ok (.inf false) ∧
      parse f64fmt ("-1e400".toList) = .ok (.inf true) := by
  refine ⟨?_, by decide, by decide, by decide, by decide, by decide⟩
  have hprec := V.two_le_prec
  have hP2 : (2 : ℤ) ≤ (fmt.prec : ℤ) := by exact_mod_cast hprec
  have hX0 : (0 : ℤ) ≤ (fmt.maxExp : ℤ) := by positivity
  have hwf := decomp_wf s neg sd e hd
  have hthr_pos : (2 : ℚ) ^ (fmt.minExp - 1) <
      ((2 : ℚ) ^ ((fmt.prec : ℤ)) - 1 / 2) * 2 ^ ((fmt.maxExp : ℤ)) := by
    have h1 : (2 : ℚ) ^ (fmt.minExp - 1) ≤ 2 ^ (0 : ℤ) :=
      zpow_le_zpow_right₀ (by norm_num) (by unfold FloatFormat.minExp; omega)
    have h2 : (2 : ℚ) ^ ((0 : ℤ)) = 1 := zpow_zero 2
    have h3 : (4 : ℚ) ≤ 2 ^ ((fmt.prec : ℤ)) := by
      calc (4 : ℚ) = 2 ^ (2 : ℤ) := by norm_num
      _ ≤ 2 ^ ((fmt.prec : ℤ)) := zpow_le_zpow_right₀ (by norm_num) hP2
    have h4 : (1 : ℚ) ≤ 2 ^ ((fmt.maxExp : ℤ)) := one_le_zpow₀ (by norm_num) hX0
    nlinarith
  have hglo : (2 : ℚ) ^ (fmt.minExp - 1) < decValue sd e := lt_of_lt_of_le hthr_pos hq
  have hvalpos : 0 < decValue sd e := lt_trans (two_zpow_pos _) hglo
  have hne : sd ≠ [] := by
    intro h0
    rw [h0] at hvalpos
    simp [decValue, digitsToNat] at hvalpos
  have hguard_zero : ¬ ((sd.length : ℤ) + e ≤ -(fmt.zeroCutoff : ℤ)) := by
    intro hcon
    have h1 : decValue sd e < (10 : ℚ) ^ ((sd.length : ℤ) + e) := decValue_lt sd e hwf.1
    have h2 : (10 : ℚ) ^ ((sd.length : ℤ) + e) ≤ 10 ^ (-(fmt.zeroCutoff : ℤ)) :=
      zpow_le_zpow_right₀ (by norm_num) hcon
    have h3 := zeroCutoff_bound fmt V
    linarith
  by_cases hginf : (fmt.overCutoff : ℤ) ≤ (sd.length : ℤ) - 1 + e
  · -- the decimal short circuit already yields infinity
    have hconv : convert fmt sd e = .inf false := by
      simp only [convert]
      rw [if_neg (by simpa [List.isEmpty_iff] using hne), if_neg hguard_zero, if_pos hginf]
    rw [parse_of_decomp fmt s neg sd e hd, hconv]
    cases neg <;> rfl
  · -- exact path: the slow-path core overflows
    obtain ⟨fuel, u, v, hu, hv, hfu, hfv, hval, hcv⟩ :=
      convert_exact fmt sd e hwf.1 hwf.2 hne hguard_zero hginf
    have hinf := toFloatPos_overflow fmt V fuel u v hu hv hfu hfv (by rw [hval]; exact hq)
    rw [parse_of_decomp fmt s neg sd e hd, hcv, hinf]
    cases neg <;> rfl

/-- C4 witness: the overflow theorem applied to `"9e999"` for the 64-bit
format. -/
theorem c4_overflow_witness : parse f64fmt ("9e999".toList) = .ok (.inf false) :=
  (c4_overflow f64fmt f64fmt_valid ("9e999".toList) false [9] 999 (by decide)
    (by norm_num [decValue, digitsToNat, f64fmt])).1

/-! ### Claim C3 -/

/-- C3: underflow.  For the 64-bit format, `"1e-325"`, `"1e-326"` and
`"1e-500"` parse to signed zero (carrying the input's sign, as the negated
instance shows), while `"5e-324"` and `"4.9406564584124654e-324"` both parse
to the smallest positive subnormal `1 * 2^-1074`. -/
theorem c3_underflow :
    parse f64fmt ("1e-325".toList) = .ok (.zero false) ∧
      parse f64fmt ("1e-326".toList) = .ok (.zero false) ∧
      parse f64fmt ("1e-500".toList) = .ok (.zero false) ∧
      parse f64fmt ("-1e-325".toList) = .ok (.zero true) ∧
      parse f64fmt ("5e-324".toList) = .ok (.finite false 1 (-1074)) ∧
      parse f64fmt ("4.9406564584124654e-324".toList) = .ok (.finite false 1 (-1074)) := by
  refine ⟨by decide, by decide, by decide, by decide, by decide, by decide⟩

/-! ### Claim C5 -/

theorem satAcc_fold_bound (ds : List ℕ) : ∀ a : ℕ, (∀ d ∈ ds, d < 10) →
    a < 10 * expSentinel →
    ds.foldl (fun a d => if expSentinel ≤ a then expSentinel else a * 10 + d) a <
      10 * expSentinel := by
  have hS : 0 < expSentinel := by unfold expSentinel; positivity
  induction ds with
  | nil => intro a _ ha; exact ha
  | cons d ds ih =>
      intro a hd ha
      show ds.foldl _ (if expSentinel ≤ a then expSentinel else a * 10 + d) < _
      apply ih
      · intro x hx
        exact hd x (List.mem_cons_of_mem d hx)
      · have hdlt : d < 10 := hd d (List.mem_cons_self d ds)
        by_cases hcase : expSentinel ≤ a
        · rw [if_pos hcase]
          omega
        · rw [if_neg hcase]
          omega

/-- C5: massive exponent saturation.  `"1e<i64::MAX>000"` parses to positive
infinity and `"1e-<i64::MAX>000"` to zero for the 64-bit format, and the
saturating exponent accumulator is bounded by a fixed sentinel multiple for
every digit string — it can never wrap. -/
theorem c5_massive_exponent :
    parse f64fmt ("1e9223372036854775807000".toList) = .ok (.inf false) ∧
      parse f64fmt ("1e-9223372036854775807000".toList) = .ok (.zero false) ∧
      (∀ ds : List ℕ, (∀ d ∈ ds, d < 10) → satAcc ds < 10 * expSentinel) := by
  refine ⟨by decide, by decide, ?_⟩
  intro ds hds
  have hS : 0 < expSentinel := by unfold expSentinel; positivity
  exact satAcc_fold_bound ds 0 hds (by omega)

/-! ### Claim C6 -/

/-- C6: totality after validation (spec-modelled intent).  In the modelled
pipeline, every input the grammar validator accepts produces an `Ok` value,
and in particular the extremely long purely-fractional input
`"0."` followed by 375 repetitions of `'3'` parses, for the 64-bit format, to
the correctly rounded value `6004799503160661 * 2^-54` (the double nearest
`1/3` scaled) rather than to an error.  The reference implementation instead
returns `Err` on this input, which its own test comment calls a bug. -/
theorem c6_valid_total_model :
    (∀ (fmt : FloatFormat) (s : List Char) (neg : Bool) (sd : List ℕ) (e : ℤ),
        decomp s = some (neg, sd, e) → ∃ w, parse fmt s = .ok w) ∧
      parse f64fmt ('0' :: '.' :: List.replicate 375 '3') =
        .ok (.finite false 6004799503160661 (-54)) := by
  refine ⟨?_, by decide⟩
  intro fmt s neg sd e hd
  exact ⟨_, parse_of_decomp fmt s neg sd e hd⟩

/-! ### Claim C7 -/

/-- C7: malformed input rejection.  A bare dot, a bare sign, and inputs with
leading or trailing whitespace are rejected with an `invalid` error for both
formats, with no partial result. -/
theorem c7_malformed_rejected :
    parse f64fmt (".".toList) = .error .invalid ∧
      parse f32fmt (".".toList) = .error .invalid ∧
      parse f64fmt ("+".toList) = .error .invalid ∧
      parse f32fmt ("+".toList) = .error .invalid ∧
      parse f64fmt ("-".toList) = .error .invalid ∧
      parse f32fmt ("-".toList) = .error .invalid ∧
      parse f64fmt (" 1.0".toList) = .error .invalid ∧
      parse f32fmt (" 1.0".toList) = .error .invalid ∧
      parse f64fmt ("1.0 ".toList) = .error .invalid ∧
      parse f32fmt ("1.0 ".toList) = .error .invalid := by
  refine ⟨by decide, by decide, by decide, by decide, by decide, by decide, by decide,
    by decide, by decide, by decide⟩

/-! ### Claim C8 -/

/-- C8: special tokens.  `"NaN"` parses to the NaN pattern, `"inf"` to
positive infinity and `"-inf"` to negative infinity, for both formats; a sign
before `"NaN"` is consumed without affecting NaN-ness. -/
theorem c8_special_tokens :
    parse f64fmt ("NaN".toList) = .ok .nan ∧
      parse f32fmt ("NaN".toList) = .ok .nan ∧
      parse f64fmt ("inf".toList) = .ok (.inf false) ∧
      parse f32fmt ("inf".toList) = .ok (.inf false) ∧
      parse f64fmt ("-inf".toList) = .ok (.inf true) ∧
      parse f32fmt ("-inf".toList) = .ok (.inf true) ∧
      parse f64fmt ("-NaN".toList) = .ok .nan := by
  refine ⟨by decide, by decide, by decide, by decide, by decide, by decide, by decide⟩

/-! ### Claim C2: ties round to even -/

theorem mul_zpow_cancel (a : ℚ) (k : ℤ) : a * 2 ^ k * 2 ^ (-k) = a := by
  rw [mul_assoc, two_zpow_mul_cancel, mul_one]

/-- Two adjacent representable finite values: either consecutive mantissas at
one exponent, or the top of one binade next to the bottom of the next. -/
def AdjacentPair (fmt : FloatFormat) (m1 : ℕ) (k1 : ℤ) (m2 : ℕ) (k2 : ℤ) : Prop :=
  Canonical fmt m1 k1 ∧ Canonical fmt m2 k2 ∧
    ((k2 = k1 ∧ m2 = m1 + 1) ∨
      (m1 = 2 ^ fmt.prec - 1 ∧ m2 = 2 ^ (fmt.prec - 1) ∧ k2 = k1 + 1))

/-- An exact tie `n + 1/2` (in mantissa position, below the top binade)
rounds to the even of `n` and `n + 1`. -/
theorem toFloatPos_tie_even (fmt : FloatFormat) (V : fmt.Valid) (fuel u v : ℕ)
    (hu : 0 < u) (hv : 0 < v) (hfu : u < 2 ^ fuel * v) (hfv : v < 2 ^ fuel * u)
    (n : ℕ) (k : ℤ) (hn1 : 1 ≤ n) (hn2 : n + 1 < 2 ^ fmt.prec)
    (hk1 : fmt.minExp ≤ k) (hk2 : k ≤ (fmt.maxExp : ℤ))
    (hns : 2 ^ (fmt.prec - 1) ≤ n ∨ k = fmt.minExp)
    (hq : (u : ℚ) / v = ((n : ℚ) + 1 / 2) * 2 ^ k) :
    toFloatPos fmt fuel u v =
      (if n % 2 = 0 then .finite false n k else .finite false (n + 1) k) := by
  have hprec := V.two_le_prec
  obtain ⟨he1, he2⟩ := floorLog2_spec fuel u v hu hv hfu hfv
  set e0 : ℤ := floorLog2 fuel u v with he0def
  set P : ℤ := (fmt.prec : ℤ) with hPdef
  have hP2 : 2 ≤ P := by rw [hPdef]; exact_mod_cast hprec
  rw [hq] at he1 he2
  have hnq2 : (n : ℚ) + 1 < 2 ^ P := by
    have h2 : ((n + 1 : ℕ) : ℚ) + 1 ≤ ((2 ^ fmt.prec : ℕ) : ℚ) := by exact_mod_cast hn2
    rw [npow_cast_zpow] at h2
    push_cast at h2
    rw [hPdef]
    linarith
  have hupper : ((n : ℚ) + 1 / 2) * 2 ^ k < 2 ^ (P + k) := by
    have h1 : ((n : ℚ) + 1 / 2) * 2 ^ k < ((2 : ℚ) ^ P) * 2 ^ k := by
      apply mul_lt_mul_of_pos_right _ (two_zpow_pos k)
      linarith
    rw [← zpow_add₀ (by norm_num : (2 : ℚ) ≠ 0)] at h1
    exact h1
  have hkk : k = max (e0 - (P - 1)) fmt.minExp := by
    rcases hns with hnormal | hsub
    · have hnormq : (2 : ℚ) ^ (P - 1) ≤ (n : ℚ) := by
        have h2 : ((2 ^ (fmt.prec - 1) : ℕ) : ℚ) ≤ (n : ℚ) := by exact_mod_cast hnormal
        rw [cast_prec_minus_one fmt hprec] at h2
        rw [hPdef]
        exact h2
      have hlow : (2 : ℚ) ^ (P - 1 + k) ≤ ((n : ℚ) + 1 / 2) * 2 ^ k := by
        have h1 : (2 : ℚ) ^ (P - 1 + k) = 2 ^ (P - 1) * 2 ^ k := by
          rw [← zpow_add₀ (by norm_num : (2 : ℚ) ≠ 0)]
        rw [h1]
        apply mul_le_mul_of_nonneg_right _ (le_of_lt (two_zpow_pos k))
        linarith
      have h1 : P - 1 + k ≤ e0 := le_e0_of_le e0 _ _ he2 hlow
      have h2 : e0 < P + k := e0_lt_of_lt e0 _ _ he1 hupper
      have h3 : e0 - (P - 1) = k := by omega
      rw [h3, max_eq_left hk1]
    · have h2 : e0 < P + k := e0_lt_of_lt e0 _ _ he1 hupper
      rw [max_eq_right (by omega : e0 - (P - 1) ≤ fmt.minExp), hsub]
  have hcancel : ((n : ℚ) + 1 / 2) * 2 ^ k * 2 ^ (-k) = (n : ℚ) + 1 / 2 :=
    mul_zpow_cancel _ k
  have hMr : rne ((u : ℚ) / v * 2 ^ (-k)) =
      (if (n : ℤ) % 2 = 0 then (n : ℤ) else (n : ℤ) + 1) := by
    rw [hq, hcancel, rne_tie (n : ℤ) _ (by push_cast; ring)]
  by_cases hpar : n % 2 = 0
  · have hpari : (n : ℤ) % 2 = 0 := by omega
    have hM : ((n : ℤ)) = rne ((u : ℚ) / v * 2 ^ (-k)) := by
      rw [hMr, if_pos hpari]
    have h9 : ((n : ℕ) : ℤ) + 1 < 2 ^ fmt.prec := by exact_mod_cast hn2
    have hfin := toFloatPos_finite fmt fuel u v hv (n : ℤ) k hkk hM
      (by omega) (by omega) (by omega)
    rw [hfin, if_pos hpar]
    congr 1 <;> omega
  · have hpari : ¬ ((n : ℤ) % 2 = 0) := by omega
    have hM : ((n : ℤ) + 1) = rne ((u : ℚ) / v * 2 ^ (-k)) := by
      rw [hMr, if_neg hpari]
    have h9 : ((n : ℕ) : ℤ) + 1 < 2 ^ fmt.prec := by exact_mod_cast hn2
    have hfin := toFloatPos_finite fmt fuel u v hv ((n : ℤ) + 1) k hkk hM
      (by omega) (by omega) (by omega)
    rw [hfin, if_neg hpar]
    congr 1 <;> omega

/-- An exact tie at the top of a binade rounds up into the next binade. -/
theorem toFloatPos_tie_binade (fmt : FloatFormat) (V : fmt.Valid) (fuel u v : ℕ)
    (hu : 0 < u) (hv : 0 < v) (hfu : u < 2 ^ fuel * v) (hfv : v < 2 ^ fuel * u)
    (k : ℤ) (hk1 : fmt.minExp ≤ k) (hk2 : k + 1 ≤ (fmt.maxExp : ℤ))
    (hq : (u : ℚ) / v = ((2 : ℚ) ^ ((fmt.prec : ℤ)) - 1 / 2) * 2 ^ k) :
    toFloatPos fmt fuel u v = .finite false (2 ^ (fmt.prec - 1)) (k + 1) := by
  have hprec := V.two_le_prec
  obtain ⟨he1, he2⟩ := floorLog2_spec fuel u v hu hv hfu hfv
  set e0 : ℤ := floorLog2 fuel u v with he0def
  set P : ℤ := (fmt.prec : ℤ) with hPdef
  have hP2 : 2 ≤ P := by rw [hPdef]; exact_mod_cast hprec
  rw [hq] at he1 he2
  have hone : (1 : ℚ) ≤ 2 ^ (P - 1) := one_le_zpow₀ (by norm_num) (by omega)
  have hsplitP : (2 : ℚ) ^ P = 2 ^ (P - 1) * 2 := by
    rw [← zpow_add_one₀ (by norm_num : (2 : ℚ) ≠ 0)]
    congr 1
    omega
  have hlow : (2 : ℚ) ^ (P - 1 + k) ≤ ((2 : ℚ) ^ P - 1 / 2) * 2 ^ k := by
    have h1 : (2 : ℚ) ^ (P - 1 + k) = 2 ^ (P - 1) * 2 ^ k := by
      rw [← zpow_add₀ (by norm_num : (2 : ℚ) ≠ 0)]
    rw [h1]
    apply mul_le_mul_of_nonneg_right _ (le_of_lt (two_zpow_pos k))
    nlinarith
  have hupper : ((2 : ℚ) ^ P - 1 / 2) * 2 ^ k < 2 ^ (P + k) := by
    have h1 : ((2 : ℚ) ^ P - 1 / 2) * 2 ^ k < ((2 : ℚ) ^ P) * 2 ^ k := by
      apply mul_lt_mul_of_pos_right _ (two_zpow_pos k)
      linarith
    rw [← zpow_add₀ (by norm_num : (2 : ℚ) ≠ 0)] at h1
    exact h1
  have hkk : k = max (e0 - (P - 1)) fmt.minExp := by
    have h1 : P - 1 + k ≤ e0 := le_e0_of_le e0 _ _ he2 hlow
    have h2 : e0 < P + k := e0_lt_of_lt e0 _ _ he1 hupper
    have h3 : e0 - (P - 1) = k := by omega
    rw [h3, max_eq_left hk1]
  have hcancel : ((2 : ℚ) ^ P - 1 / 2) * 2 ^ k * 2 ^ (-k) = (2 : ℚ) ^ P - 1 / 2 :=
    mul_zpow_cancel _ k
  have hModd : ((2 : ℤ) ^ fmt.prec - 1) % 2 = 1 := by
    have hev : (2 : ℤ) ^ fmt.prec = 2 * 2 ^ (fmt.prec - 1) := by
      conv_lhs => rw [show fmt.prec = fmt.prec - 1 + 1 by omega]
      rw [pow_succ]
      ring
    omega
  have hMB : ((2 : ℤ) ^ fmt.prec) = rne ((u : ℚ) / v * 2 ^ (-k)) := by
    rw [hq, hcancel, rne_tie ((2 : ℤ) ^ fmt.prec - 1) _ (by
      rw [hPdef, zpow_natCast]
      push_cast
      ring)]
    rw [if_neg (by omega)]
    omega
  have hren := toFloatPos_finite_renorm fmt fuel u v hv ((2 : ℤ) ^ fmt.prec) k
    hkk hMB rfl (by omega)
  exact hren

/-- C2: round-half-to-even.  A valid numeral whose exact value is precisely
halfway between two adjacent representable values parses to the neighbor
whose canonical mantissa is even; in particular the literal
`"36893488147419103229.0"` (which is `2^65 - 3`) parses, for both formats,
to `2^65` — the neighbor with the even mantissa. -/
theorem c2_half_to_even (fmt : FloatFormat) (V : fmt.Valid) (m1 : ℕ) (k1 : ℤ)
    (m2 : ℕ) (k2 : ℤ) (s : List Char) (neg : Bool) (sd : List ℕ) (e : ℤ)
    (hadj : AdjacentPair fmt m1 k1 m2 k2)
    (hd : decomp s = some (neg, sd, e))
    (htie : 2 * decValue sd e = (m1 : ℚ) * 2 ^ k1 + (m2 : ℚ) * 2 ^ k2) :
    parse fmt s = .ok (applySign neg
        (if m1 % 2 = 0 then .finite false m1 k1 else .finite false m2 k2)) ∧
      parse f64fmt ("36893488147419103229.0".toList) =
        .ok (.finite false 4503599627370496 13) ∧
      parse f32fmt ("36893488147419103229.0".toList) = .ok (.finite false 8388608 42) := by
  refine ⟨?_, by decide, by decide⟩
  obtain ⟨hc1, hc2, hshape⟩ := hadj
  have hprec := V.two_le_prec
  have hm2k : (m1 : ℚ) * 2 ^ k1 ≤ (m2 : ℚ) * 2 ^ k2 := by
    rcases hshape with ⟨hk, hm⟩ | ⟨hb1, hb2, hb3⟩
    · rw [hk, hm]
      apply mul_le_mul_of_nonneg_right _ (le_of_lt (two_zpow_pos k1))
      push_cast
      linarith
    · have hm1c : (m1 : ℚ) = 2 ^ ((fmt.prec : ℤ)) - 1 := by
        rw [hb1]
        have hone : (1 : ℕ) ≤ 2 ^ fmt.prec := Nat.one_le_pow _ _ (by norm_num)
        push_cast [hone]
        rw [← zpow_natCast (2 : ℚ) fmt.prec]
      have hm2c : (m2 : ℚ) * 2 ^ k2 = 2 ^ ((fmt.prec : ℤ)) * 2 ^ k1 := by
        rw [hb2, hb3, cast_prec_minus_one fmt hprec,
          ← zpow_add₀ (by norm_num : (2 : ℚ) ≠ 0), ← zpow_add₀ (by norm_num : (2 : ℚ) ≠ 0)]
        congr 1
        omega
      rw [hm1c, hm2c]
      apply mul_le_mul_of_nonneg_right _ (le_of_lt (two_zpow_pos k1))
      linarith [two_zpow_pos ((fmt.prec : ℤ))]
  have hqlo : (m1 : ℚ) * 2 ^ k1 ≤ decValue sd e := by linarith
  have hqhi : decValue sd e ≤ (m2 : ℚ) * 2 ^ k2 := by linarith
  have hglo : (2 : ℚ) ^ (fmt.minExp - 1) < decValue sd e := by
    have h1 : (2 : ℚ) ^ k1 ≤ (m1 : ℚ) * 2 ^ k1 := by
      have hmq : (1 : ℚ) ≤ (m1 : ℚ) := by exact_mod_cast hc1.1
      nlinarith [two_zpow_pos k1]
    have h2 : (2 : ℚ) ^ (fmt.minExp - 1) < 2 ^ k1 := by
      apply zpow_lt_zpow_right₀ (by norm_num)
      have := hc1.2.2.1
      omega
    linarith
  have hghi : decValue sd e < (2 : ℚ) ^ ((fmt.prec : ℤ) + fmt.maxExp) := by
    have h1 : (m2 : ℚ) * 2 ^ k2 < midHi fmt m2 k2 := by
      unfold midHi
      have := two_zpow_pos (k2 - 1)
      linarith
    have h2 := midHi_lt_max fmt m2 k2 hc2.2.1 hc2.2.2.2.1
    linarith
  apply parse_exact_eq fmt V s neg sd e _ hd hglo hghi
  intro fuel u v hu hv hfu hfv hval
  rcases hshape with ⟨hk, hm⟩ | ⟨hb1, hb2, hb3⟩
  · -- consecutive mantissas at one exponent
    have hqform : (u : ℚ) / v = ((m1 : ℚ) + 1 / 2) * 2 ^ k1 := by
      rw [hval]
      rw [hk, hm] at htie
      push_cast at htie
      linarith
    have hm1lt : m1 + 1 < 2 ^ fmt.prec := by
      have := hc2.2.1
      omega
    have htfe := toFloatPos_tie_even fmt V fuel u v hu hv hfu hfv m1 k1
      hc1.1 hm1lt hc1.2.2.1 hc1.2.2.2.1 hc1.2.2.2.2 hqform
    rw [htfe]
    by_cases hpar : m1 % 2 = 0
    · rw [if_pos hpar, if_pos hpar]
    · rw [if_neg hpar, if_neg hpar, hk, hm]
  · -- tie at the top of a binade
    have hm1c : (m1 : ℚ) = 2 ^ ((fmt.prec : ℤ)) - 1 := by
      rw [hb1]
      have hone : (1 : ℕ) ≤ 2 ^ fmt.prec := Nat.one_le_pow _ _ (by norm_num)
      push_cast [hone]
      rw [← zpow_natCast (2 : ℚ) fmt.prec]
    have hm2c : (m2 : ℚ) * 2 ^ k2 = 2 ^ ((fmt.prec : ℤ)) * 2 ^ k1 := by
      rw [hb2, hb3, cast_prec_minus_one fmt hprec,
        ← zpow_add₀ (by norm_num : (2 : ℚ) ≠ 0), ← zpow_add₀ (by norm_num : (2 : ℚ) ≠ 0)]
      congr 1
      omega
    have hqform : (u : ℚ) / v = ((2 : ℚ) ^ ((fmt.prec : ℤ)) - 1 / 2) * 2 ^ k1 := by
      rw [hval]
      rw [hm1c, hm2c] at htie
      linarith
    have hk2le : k1 + 1 ≤ (fmt.maxExp : ℤ) := by
      have := hc2.2.2.2.1
      omega
    have htfb := toFloatPos_tie_binade fmt V fuel u v hu hv hfu hfv k1
      hc1.2.2.1 hk2le hqform
    rw [htfb]
    have hm1odd : ¬ (m1 % 2 = 0) := by
      rw [hb1]
      have hev : (2 : ℕ) ^ fmt.prec = 2 * 2 ^ (fmt.prec - 1) := by
        conv_lhs => rw [show fmt.prec = fmt.prec - 1 + 1 by omega]
        rw [pow_succ]
        ring
      have hpos : 1 ≤ 2 ^ (fmt.prec - 1) := Nat.one_le_pow _ _ (by norm_num)
      omega
    rw [if_neg hm1odd, hb2, hb3]

/-- C2 witness: the tie theorem applied to `"4503599627370496.5"`, exactly
halfway between the adjacent 64-bit values `2^52` and `2^52 + 1`; the even
neighbor `2^52` wins. -/
theorem c2_half_to_even_witness :
    parse f64fmt ("4503599627370496.5".toList) =
      .ok (.finite false 4503599627370496 0) := by
  have h := c2_half_to_even f64fmt f64fmt_valid 4503599627370496 0
    4503599627370497 0 ("4503599627370496.5".toList) false
    [4, 5, 0, 3, 5, 9, 9, 6, 2, 7, 3, 7, 0, 4, 9, 6, 5] (-1)
    (by unfold AdjacentPair Canonical
        exact ⟨by decide, by decide, Or.inl ⟨rfl, rfl⟩⟩)
    (by decide)
    (by norm_num [decValue, digitsToNat])
  rw [h.1]
  decide

/-! ### Claim C10 -/

/-- C10: totality of the public API.  On every input string the modelled
`parse` returns an `Ok` value or an `error` result — partiality is confined
to the `Except` result, with no other failure mode in the model. -/
theorem c10_parse_total (fmt : FloatFormat) (s : List Char) :
    (∃ w, parse fmt s = .ok w) ∨ (∃ er, parse fmt s = .error er) := by
  rcases h : parse fmt s with er | w
  · exact Or.inr ⟨er, rfl⟩
  · exact Or.inl ⟨w, rfl⟩

/-- C1 witness: the round-trip theorem applied to the rendering `"1.0"` of
the 64-bit value `1.0 = 2^52 * 2^-52`. -/
theorem c1_round_trip_witness :
    parse f64fmt ("1.0".toList) = .ok (.finite false 4503599627370496 (-52)) ∧
      parse f64fmt ('-' :: "1.0".toList) = .ok (.finite true 4503599627370496 (-52)) := by
  have h := c1_round_trip f64fmt f64fmt_valid 4503599627370496 (-52)
    ("1.0".toList) [1, 0] (-1) (by unfold Canonical; decide) (by decide) (by decide)
    (by norm_num [midLo, decValue, digitsToNat, f64fmt, FloatFormat.minExp])
    (by norm_num [midHi, decValue, digitsToNat, f64fmt])
  exact ⟨h.1, h.2.1⟩

/-! ### Claim C9: monotonicity in the digit sequence -/

theorem int_pow_cast_zpow (n : ℕ) : (((2 : ℤ) ^ n : ℤ) : ℚ) = (2 : ℚ) ^ (n : ℤ) := by
  push_cast
  exact (zpow_natCast 2 n).symm

theorem int_pow_prec_sub_one_cast (fmt : FloatFormat) (h : 1 ≤ fmt.prec) :
    (((2 : ℤ) ^ (fmt.prec - 1) : ℤ) : ℚ) = (2 : ℚ) ^ ((fmt.prec : ℤ) - 1) := by
  rw [int_pow_cast_zpow]
  congr 1
  omega

theorem two_zpow_lt (a b : ℤ) (h : a < b) : (2 : ℚ) ^ a < 2 ^ b := by
  have h1 : (2 : ℚ) ^ a ≤ 2 ^ (b - 1) := zpow_le_zpow_right₀ (by norm_num) (by omega)
  have h2 : (2 : ℚ) ^ (b - 1) = 2 ^ b / 2 := half_zpow b
  have h3 := two_zpow_pos b
  linarith

/-- Upper bound on the rounded mantissa: the scaled value sits below `2^prec`,
so its rounding cannot exceed `2^prec`. -/
theorem mant_le (fmt : FloatFormat) (q : ℚ) (e0 k : ℤ)
    (hqhi : q < 2 ^ (e0 + 1)) (hk : e0 - ((fmt.prec : ℤ) - 1) ≤ k) :
    rne (q * 2 ^ (-k)) ≤ 2 ^ fmt.prec := by
  apply rne_le_int
  rw [int_pow_cast_zpow]
  have h1 : q * 2 ^ (-k) < 2 ^ (e0 + 1) * 2 ^ (-k) :=
    mul_lt_mul_of_pos_right hqhi (two_zpow_pos _)
  have h2 : (2 : ℚ) ^ (e0 + 1) * 2 ^ (-k) = 2 ^ (e0 + 1 + -k) :=
    (zpow_add₀ (by norm_num : (2 : ℚ) ≠ 0) _ _).symm
  have h3 : (2 : ℚ) ^ (e0 + 1 + -k) ≤ 2 ^ ((fmt.prec : ℤ)) :=
    zpow_le_zpow_right₀ (by norm_num) (by omega)
  linarith

/-- Lower bound on the rounded mantissa in the normal range: when the quantum
exponent is not clamped, the scaled value is at least `2^(prec-1)`. -/
theorem mant_ge (fmt : FloatFormat) (q : ℚ) (e0 k : ℤ)
    (hqlo : 2 ^ e0 ≤ q) (hk : k ≤ e0 - ((fmt.prec : ℤ) - 1)) (hp1 : 1 ≤ fmt.prec) :
    (2 : ℤ) ^ (fmt.prec - 1) ≤ rne (q * 2 ^ (-k)) := by
  apply rne_ge_int
  rw [int_pow_prec_sub_one_cast fmt hp1]
  have h1 : (2 : ℚ) ^ e0 * 2 ^ (-k) ≤ q * 2 ^ (-k) :=
    mul_le_mul_of_nonneg_right hqlo (le_of_lt (two_zpow_pos _))
  have h2 : (2 : ℚ) ^ e0 * 2 ^ (-k) = 2 ^ (e0 + -k) :=
    (zpow_add₀ (by norm_num : (2 : ℚ) ≠ 0) _ _).symm
  have h3 : (2 : ℚ) ^ ((fmt.prec : ℤ) - 1) ≤ 2 ^ (e0 + -k) :=
    zpow_le_zpow_right₀ (by norm_num) (by omega)
  linarith

/-- The sign of a parse outcome does not affect its magnitude. -/
theorem magWT_applySign (neg : Bool) (x : FpVal) : magWT (applySign neg x) = magWT x := by
  cases x <;> rfl

/-- A zero outcome has the least magnitude. -/
theorem magWT_zero_le (x : FpVal) (b : Bool) : magWT (.zero b) ≤ magWT x := by
  cases x with
  | zero c => exact le_refl _
  | finite c m k =>
      simp only [magWT]
      exact_mod_cast (by positivity : (0 : ℚ) ≤ (m : ℚ) * 2 ^ k)
  | inf c => exact le_top
  | nan => exact le_top

/-- Magnitude characterization of the slow-path core: the result's magnitude
is the rounded value `M * 2^k`, clamped to the top element once it reaches
the overflow threshold `2^(prec + maxExp)`. -/
theorem toFloatPos_mag (fmt : FloatFormat) (V : fmt.Valid) (fuel u v : ℕ)
    (hu : 0 < u) (hv : 0 < v) (hf1 : u < 2 ^ fuel * v) (hf2 : v < 2 ^ fuel * u)
    (M k : ℤ)
    (hk : k = max (floorLog2 fuel u v - ((fmt.prec : ℤ) - 1)) fmt.minExp)
    (hM : M = rne ((u : ℚ) / v * 2 ^ (-k))) :
    magWT (toFloatPos fmt fuel u v) =
      if (2 : ℚ) ^ ((fmt.prec : ℤ) + (fmt.maxExp : ℤ)) ≤ (M : ℚ) * 2 ^ k then ⊤
      else (((M : ℚ) * 2 ^ k : ℚ) : WithTop ℚ) := by
  have hP2 := V.two_le_prec
  have hgen := toFloatPos_eq_general fmt fuel u v hv M k hk hM
  obtain ⟨hqlo, hqhi⟩ := floorLog2_spec fuel u v hu hv hf1 hf2
  set e0 := floorLog2 fuel u v with he0
  have hke0 : e0 - ((fmt.prec : ℤ) - 1) ≤ k := by omega
  have hkmin : fmt.minExp ≤ k := by omega
  have huq : (0 : ℚ) < (u : ℚ) := by exact_mod_cast hu
  have hvq : (0 : ℚ) < (v : ℚ) := by exact_mod_cast hv
  have hq0 : (0 : ℚ) ≤ (u : ℚ) / v * 2 ^ (-k) := by positivity
  have hMnn : 0 ≤ M := by
    rw [hM]
    exact rne_nonneg _ hq0
  have hMle : M ≤ 2 ^ fmt.prec := by
    rw [hM]
    exact mant_le fmt _ e0 k hqhi hke0
  have hOpos : (0 : ℚ) < 2 ^ ((fmt.prec : ℤ) + (fmt.maxExp : ℤ)) := two_zpow_pos _
  rw [hgen]
  by_cases h0 : M = 0
  · rw [if_pos h0]
    have hc : ¬ ((2 : ℚ) ^ ((fmt.prec : ℤ) + (fmt.maxExp : ℤ)) ≤ (M : ℚ) * 2 ^ k) := by
      rw [h0]
      simp only [Int.cast_zero, zero_mul]
      exact not_le.mpr hOpos
    rw [if_neg hc]
    simp [magWT, h0]
  · rw [if_neg h0]
    by_cases hp : M = 2 ^ fmt.prec
    · have hM2k : (M : ℚ) * 2 ^ k = 2 ^ ((fmt.prec : ℤ) + k) := by
        rw [hp, int_pow_cast_zpow, ← zpow_add₀ (by norm_num : (2 : ℚ) ≠ 0)]
      rw [if_pos hp]
      by_cases hmax : (fmt.maxExp : ℤ) < k + 1
      · rw [if_pos hmax]
        have hcond : (2 : ℚ) ^ ((fmt.prec : ℤ) + (fmt.maxExp : ℤ)) ≤ (M : ℚ) * 2 ^ k := by
          rw [hM2k]
          exact zpow_le_zpow_right₀ (by norm_num) (by omega)
        rw [if_pos hcond]
        rfl
      · rw [if_neg hmax]
        have hcond : ¬ ((2 : ℚ) ^ ((fmt.prec : ℤ) + (fmt.maxExp : ℤ)) ≤ (M : ℚ) * 2 ^ k) := by
          rw [hM2k]
          exact not_le.mpr (two_zpow_lt _ _ (by omega))
        rw [if_neg hcond]
        have hval : ((2 ^ (fmt.prec - 1) : ℕ) : ℚ) * 2 ^ (k + 1) = (M : ℚ) * 2 ^ k := by
          rw [cast_prec_minus_one fmt hP2, hM2k, ← zpow_add₀ (by norm_num : (2 : ℚ) ≠ 0)]
          congr 1
          ring
        simp only [magWT, hval]
    · rw [if_neg hp]
      by_cases hmax : (fmt.maxExp : ℤ) < k
      · rw [if_pos hmax]
        have hminle : fmt.minExp ≤ (fmt.maxExp : ℤ) := by
          unfold FloatFormat.minExp
          omega
        have hkeq : k = e0 - ((fmt.prec : ℤ) - 1) := by omega
        have hMge : (2 : ℤ) ^ (fmt.prec - 1) ≤ M := by
          rw [hM]
          exact mant_ge fmt _ e0 k hqlo (by omega) (by omega)
        have hcond : (2 : ℚ) ^ ((fmt.prec : ℤ) + (fmt.maxExp : ℤ)) ≤ (M : ℚ) * 2 ^ k := by
          have h1 : (2 : ℚ) ^ ((fmt.prec : ℤ) - 1) ≤ (M : ℚ) := by
            rw [← int_pow_prec_sub_one_cast fmt (by omega)]
            exact_mod_cast hMge
          calc (2 : ℚ) ^ ((fmt.prec : ℤ) + (fmt.maxExp : ℤ))
              ≤ 2 ^ ((fmt.prec : ℤ) - 1 + k) := zpow_le_zpow_right₀ (by norm_num) (by omega)
          _ = 2 ^ ((fmt.prec : ℤ) - 1) * 2 ^ k := zpow_add₀ (by norm_num) _ _
          _ ≤ (M : ℚ) * 2 ^ k := mul_le_mul_of_nonneg_right h1 (le_of_lt (two_zpow_pos _))
        rw [if_pos hcond]
        rfl
      · rw [if_neg hmax]
        have hMlt : M < 2 ^ fmt.prec := lt_of_le_of_ne hMle hp
        have hcond : ¬ ((2 : ℚ) ^ ((fmt.prec : ℤ) + (fmt.maxExp : ℤ)) ≤ (M : ℚ) * 2 ^ k) := by
          apply not_le.mpr
          have h1 : (M : ℚ) < 2 ^ ((fmt.prec : ℤ)) := by
            rw [← int_pow_cast_zpow fmt.prec]
            exact_mod_cast hMlt
          calc (M : ℚ) * 2 ^ k < 2 ^ ((fmt.prec : ℤ)) * 2 ^ k :=
                mul_lt_mul_of_pos_right h1 (two_zpow_pos _)
          _ = 2 ^ ((fmt.prec : ℤ) + k) := (zpow_add₀ (by norm_num) _ _).symm
          _ ≤ 2 ^ ((fmt.prec : ℤ) + (fmt.maxExp : ℤ)) :=
                zpow_le_zpow_right₀ (by norm_num) (by omega)
        rw [if_neg hcond]
        have hcast : ((M.toNat : ℕ) : ℚ) = (M : ℚ) := by
          exact_mod_cast Int.toNat_of_nonneg hMnn
        simp only [magWT, hcast]

/-- Core of the monotonicity argument: the rounded magnitude `M * 2^k` is
monotone in the exact value, across quantum exponents. -/
theorem mant_mono (fmt : FloatFormat) (V : fmt.Valid) (q1 q2 : ℚ) (e01 e02 k1 k2 M1 M2 : ℤ)
    (hq12 : q1 ≤ q2)
    (h1lo : 2 ^ e01 ≤ q1) (h1hi : q1 < 2 ^ (e01 + 1))
    (h2lo : 2 ^ e02 ≤ q2) (h2hi : q2 < 2 ^ (e02 + 1))
    (hk1 : k1 = max (e01 - ((fmt.prec : ℤ) - 1)) fmt.minExp)
    (hk2 : k2 = max (e02 - ((fmt.prec : ℤ) - 1)) fmt.minExp)
    (hM1 : M1 = rne (q1 * 2 ^ (-k1))) (hM2 : M2 = rne (q2 * 2 ^ (-k2))) :
    (M1 : ℚ) * 2 ^ k1 ≤ (M2 : ℚ) * 2 ^ k2 := by
  have hP2 := V.two_le_prec
  have he0 : e01 ≤ e02 := by
    have := e0_lt_of_lt e01 (e02 + 1) q2 (le_trans h1lo hq12) h2hi
    omega
  have hk12 : k1 ≤ k2 := by omega
  rcases eq_or_lt_of_le hk12 with heq | hlt
  · have hMle : M1 ≤ M2 := by
      rw [hM1, hM2, heq]
      exact rne_mono _ _ (mul_le_mul_of_nonneg_right hq12 (le_of_lt (two_zpow_pos _)))
    rw [heq]
    exact mul_le_mul_of_nonneg_right (by exact_mod_cast hMle) (le_of_lt (two_zpow_pos _))
  · have hk2eq : k2 = e02 - ((fmt.prec : ℤ) - 1) := by omega
    have hM2ge : (2 : ℤ) ^ (fmt.prec - 1) ≤ M2 := by
      rw [hM2]
      exact mant_ge fmt q2 e02 k2 h2lo (by omega) (by omega)
    have hM1le : M1 ≤ 2 ^ fmt.prec := by
      rw [hM1]
      exact mant_le fmt q1 e01 k1 h1hi (by omega)
    calc (M1 : ℚ) * 2 ^ k1
        ≤ (2 : ℚ) ^ ((fmt.prec : ℤ)) * 2 ^ k1 := by
          apply mul_le_mul_of_nonneg_right _ (le_of_lt (two_zpow_pos _))
          rw [← int_pow_cast_zpow fmt.prec]
          exact_mod_cast hM1le
    _ = 2 ^ ((fmt.prec : ℤ) + k1) := (zpow_add₀ (by norm_num) _ _).symm
    _ ≤ 2 ^ ((fmt.prec : ℤ) - 1 + k2) := zpow_le_zpow_right₀ (by norm_num) (by omega)
    _ = 2 ^ ((fmt.prec : ℤ) - 1) * 2 ^ k2 := zpow_add₀ (by norm_num) _ _
    _ ≤ (M2 : ℚ) * 2 ^ k2 := by
          apply mul_le_mul_of_nonneg_right _ (le_of_lt (two_zpow_pos _))
          rw [← int_pow_prec_sub_one_cast fmt (by omega)]
          exact_mod_cast hM2ge

/-- Monotonicity of the slow-path core in the exact value, through the
magnitude characterization. -/
theorem toFloatPos_mag_mono (fmt : FloatFormat) (V : fmt.Valid)
    (fuel1 u1 v1 fuel2 u2 v2 : ℕ)
    (hu1 : 0 < u1) (hv1 : 0 < v1) (hf11 : u1 < 2 ^ fuel1 * v1) (hf12 : v1 < 2 ^ fuel1 * u1)
    (hu2 : 0 < u2) (hv2 : 0 < v2) (hf21 : u2 < 2 ^ fuel2 * v2) (hf22 : v2 < 2 ^ fuel2 * u2)
    (hq : (u1 : ℚ) / v1 ≤ (u2 : ℚ) / v2) :
    magWT (toFloatPos fmt fuel1 u1 v1) ≤ magWT (toFloatPos fmt fuel2 u2 v2) := by
  obtain ⟨h1lo, h1hi⟩ := floorLog2_spec fuel1 u1 v1 hu1 hv1 hf11 hf12
  obtain ⟨h2lo, h2hi⟩ := floorLog2_spec fuel2 u2 v2 hu2 hv2 hf21 hf22
  set k1 : ℤ := max (floorLog2 fuel1 u1 v1 - ((fmt.prec : ℤ) - 1)) fmt.minExp with hk1
  set M1 : ℤ := rne ((u1 : ℚ) / v1 * 2 ^ (-k1)) with hM1
  set k2 : ℤ := max (floorLog2 fuel2 u2 v2 - ((fmt.prec : ℤ) - 1)) fmt.minExp with hk2
  set M2 : ℤ := rne ((u2 : ℚ) / v2 * 2 ^ (-k2)) with hM2
  have hMM := mant_mono fmt V ((u1 : ℚ) / v1) ((u2 : ℚ) / v2)
    (floorLog2 fuel1 u1 v1) (floorLog2 fuel2 u2 v2) k1 k2 M1 M2
    hq h1lo h1hi h2lo h2hi hk1 hk2 hM1 hM2
  rw [toFloatPos_mag fmt V fuel1 u1 v1 hu1 hv1 hf11 hf12 M1 k1 hk1 hM1,
    toFloatPos_mag fmt V fuel2 u2 v2 hu2 hv2 hf21 hf22 M2 k2 hk2 hM2]
  by_cases hc2 : (2 : ℚ) ^ ((fmt.prec : ℤ) + (fmt.maxExp : ℤ)) ≤ (M2 : ℚ) * 2 ^ k2
  · rw [if_pos hc2]
    exact le_top
  · rw [if_neg hc2, if_neg (fun hc1 => hc2 (le_trans hc1 hMM))]
    exact_mod_cast hMM

/-- The all-zero (empty significant-digit) numeral converts to zero. -/
theorem convert_nil (fmt : FloatFormat) (e : ℤ) : convert fmt [] e = .zero false := by
  simp [convert]

/-- The certain-underflow short circuit of `convert`. -/
theorem convert_zero_guard (fmt : FloatFormat) (sd : List ℕ) (e : ℤ) (hne : sd ≠ [])
    (hz : (sd.length : ℤ) + e ≤ -(fmt.zeroCutoff : ℤ)) :
    convert fmt sd e = .zero false := by
  obtain ⟨d, ds, rfl⟩ : ∃ d ds, sd = d :: ds := by
    match sd, hne with
    | d :: ds, _ => exact ⟨d, ds, rfl⟩
  simp only [convert, List.isEmpty_cons, Bool.false_eq_true, if_false]
  rw [if_pos hz]

/-- The certain-overflow short circuit of `convert`. -/
theorem convert_over_guard (fmt : FloatFormat) (sd : List ℕ) (e : ℤ) (hne : sd ≠ [])
    (hz : ¬ ((sd.length : ℤ) + e ≤ -(fmt.zeroCutoff : ℤ)))
    (ho : (fmt.overCutoff : ℤ) ≤ (sd.length : ℤ) - 1 + e) :
    convert fmt sd e = .inf false := by
  obtain ⟨d, ds, rfl⟩ : ∃ d ds, sd = d :: ds := by
    match sd, hne with
    | d :: ds, _ => exact ⟨d, ds, rfl⟩
  simp only [convert, List.isEmpty_cons, Bool.false_eq_true, if_false]
  rw [if_neg hz, if_pos ho]

/-- A longer integer needs at least as many digits: comparing the canonical
lower and upper decimal bounds forces the length order. -/
theorem digits_len_le (sd1 sd2 : List ℕ)
    (hhead1 : ∀ d, sd1.head? = some d → 1 ≤ d) (hne1 : sd1 ≠ [])
    (hdig2 : ∀ x ∈ sd2, x < 10)
    (hle : digitsToNat sd1 ≤ digitsToNat sd2) :
    sd1.length ≤ sd2.length := by
  obtain ⟨d, ds, rfl⟩ : ∃ d ds, sd1 = d :: ds := by
    match sd1, hne1 with
    | d :: ds, _ => exact ⟨d, ds, rfl⟩
  have h1 : 10 ^ ds.length ≤ digitsToNat (d :: ds) := digitsToNat_ge d ds (hhead1 d rfl)
  have h2 : digitsToNat sd2 < 10 ^ sd2.length := digitsToNat_lt sd2 hdig2
  have h3 : 10 ^ ds.length < 10 ^ sd2.length :=
    lt_of_le_of_lt (le_trans h1 hle) h2
  have hlen : ds.length < sd2.length := by
    by_contra hc
    push_neg at hc
    exact absurd h3 (not_lt.mpr (Nat.pow_le_pow_right (by norm_num) hc))
  rw [List.length_cons]
  omega

/-- Monotonicity of the normalized-decimal conversion in the digit sequence,
at a fixed effective exponent. -/
theorem convert_mag_mono (fmt : FloatFormat) (V : fmt.Valid) (sd1 sd2 : List ℕ) (e : ℤ)
    (hdig1 : ∀ x ∈ sd1, x < 10) (hhead1 : ∀ d, sd1.head? = some d → 1 ≤ d)
    (hdig2 : ∀ x ∈ sd2, x < 10) (hhead2 : ∀ d, sd2.head? = some d → 1 ≤ d)
    (hle : digitsToNat sd1 ≤ digitsToNat sd2) :
    magWT (convert fmt sd1 e) ≤ magWT (convert fmt sd2 e) := by
  by_cases hne1 : sd1 = []
  · subst hne1
    rw [convert_nil]
    exact magWT_zero_le _ false
  · have hne2 : sd2 ≠ [] := by
      intro hnil
      subst hnil
      obtain ⟨d, ds, rfl⟩ : ∃ d ds, sd1 = d :: ds := by
        match sd1, hne1 with
        | d :: ds, _ => exact ⟨d, ds, rfl⟩
      have hge := digitsToNat_ge d ds (hhead1 d rfl)
      have h10 : 1 ≤ 10 ^ ds.length := Nat.one_le_pow _ _ (by norm_num)
      have hz : digitsToNat ([] : List ℕ) = 0 := rfl
      rw [hz] at hle
      omega
    have hL : sd1.length ≤ sd2.length := digits_len_le sd1 sd2 hhead1 hne1 hdig2 hle
    by_cases hz1 : (sd1.length : ℤ) + e ≤ -(fmt.zeroCutoff : ℤ)
    · rw [convert_zero_guard fmt sd1 e hne1 hz1]
      exact magWT_zero_le _ false
    · have hz2 : ¬ ((sd2.length : ℤ) + e ≤ -(fmt.zeroCutoff : ℤ)) := by omega
      by_cases ho2 : (fmt.overCutoff : ℤ) ≤ (sd2.length : ℤ) - 1 + e
      · rw [convert_over_guard fmt sd2 e hne2 hz2 ho2]
        exact le_top
      · have ho1 : ¬ ((fmt.overCutoff : ℤ) ≤ (sd1.length : ℤ) - 1 + e) := by omega
        obtain ⟨fuel1, u1, v1, hu1, hv1, hf11, hf12, hval1, hconv1⟩ :=
          convert_exact fmt sd1 e hdig1 hhead1 hne1 hz1 ho1
        obtain ⟨fuel2, u2, v2, hu2, hv2, hf21, hf22, hval2, hconv2⟩ :=
          convert_exact fmt sd2 e hdig2 hhead2 hne2 hz2 ho2
        rw [hconv1, hconv2]
        apply toFloatPos_mag_mono fmt V fuel1 u1 v1 fuel2 u2 v2
          hu1 hv1 hf11 hf12 hu2 hv2 hf21 hf22
        rw [hval1, hval2]
        unfold decValue
        exact mul_le_mul_of_nonneg_right (by exact_mod_cast hle)
          (le_of_lt (ten_zpow_pos e))

/-- C9: monotonicity in the digit sequence.  For two valid inputs normalizing
to the same sign and the same effective decimal exponent, if the first
significant-digit sequence read as an integer is at most the second, the
magnitude of the first parsed outcome is at most the magnitude of the second
(with infinity mapped to the top element). -/
theorem c9_monotone (fmt : FloatFormat) (V : fmt.Valid) (s1 s2 : List Char)
    (neg : Bool) (sd1 sd2 : List ℕ) (e : ℤ) (w1 w2 : FpVal)
    (h1 : decomp s1 = some (neg, sd1, e))
    (h2 : decomp s2 = some (neg, sd2, e))
    (hle : digitsToNat sd1 ≤ digitsToNat sd2)
    (hp1 : parse fmt s1 = .ok w1)
    (hp2 : parse fmt s2 = .ok w2) :
    magWT w1 ≤ magWT w2 := by
  have hq1 := parse_of_decomp fmt s1 neg sd1 e h1
  have hq2 := parse_of_decomp fmt s2 neg sd2 e h2
  rw [hp1] at hq1
  rw [hp2] at hq2
  have hw1 : w1 = applySign neg (convert fmt sd1 e) := Except.ok.inj hq1
  have hw2 : w2 = applySign neg (convert fmt sd2 e) := Except.ok.inj hq2
  obtain ⟨hd1, hh1⟩ := decomp_wf s1 neg sd1 e h1
  obtain ⟨hd2, hh2⟩ := decomp_wf s2 neg sd2 e h2
  rw [hw1, hw2, magWT_applySign, magWT_applySign]
  exact convert_mag_mono fmt V sd1 sd2 e hd1 hh1 hd2 hh2 hle

/-- C9 witness: the monotonicity theorem applied to `"1e0"` and `"2e0"` for
the 64-bit format, whose parses are `2^52 * 2^-52 = 1` and
`2^52 * 2^-51 = 2`. -/
theorem c9_monotone_witness :
    magWT (FpVal.finite false 4503599627370496 (-52)) ≤
      magWT (FpVal.finite false 4503599627370496 (-51)) :=
  c9_monotone f64fmt f64fmt_valid ("1e0".toList) ("2e0".toList) false [1] [2] 0
    (FpVal.finite false 4503599627370496 (-52))
    (FpVal.finite false 4503599627370496 (-51))
    (by decide) (by decide) (by decide) (by decide) (by decide)

end Dec2Flt
